import Mathlib

set_option maxHeartbeats 1000000
set_option maxRecDepth 4096

/-!
A shallow embedding of the core logic of `src/app.py` (Governance Resource
Finder) together with proofs about the claims of its specification.

Python strings are modelled as lists of characters (`PyStr`).  The external
collaborators (the text-generation service and the two HTTP probes) are
modelled as oracle parameters: a generation call either returns a text or
raises, and an HTTP probe either yields a numeric status code or raises a
transport exception.
-/

abbrev PyStr := List Char

/-! ### URL extractor — `extract_urls` (app.py lines 187-205)

The Python function first collects the matches of two regexes into the SET
`raw_urls` and then runs a cleaning / dedup loop over that set.  The
iteration order of a Python set is implementation defined (string hashing is
randomised), so the model makes the enumeration order of the set an explicit
parameter and characterises the admissible enumerations with `validEnum`.
-/

/-- Characters on which the bare-URL regex `https?://[^\s)>\]]+` stops:
whitespace (Python `\s`, ASCII part) and the closing-bracket class. -/
def stopChar (c : Char) : Bool :=
  c == ' ' || c == '\t' || c == '\n' || c == '\r' || c == '\x0b' || c == '\x0c' ||
  c == ')' || c == '>' || c == ']'

/-- Matching of the regex piece `https?://` at the head of `l`: the greedy
`s?` tries `https://` first, then `http://`.  Returns the consumed scheme
text and the remainder. -/
def matchScheme (l : PyStr) : Option (PyStr × PyStr) :=
  if List.isPrefixOf "https://".toList l then
    some ("https://".toList, l.drop 8)
  else if List.isPrefixOf "http://".toList l then
    some ("http://".toList, l.drop 7)
  else none

/-- One anchored match attempt of `https?://[^\s)>\]]+` at the head of `l`:
the scheme followed by a maximal nonempty run of non-stop characters.
Returns the matched text and the remainder of the input. -/
def tryMatch1 (l : PyStr) : Option (PyStr × PyStr) :=
  match matchScheme l with
  | none => none
  | some (pre, rest) =>
    if (rest.takeWhile (fun c => !stopChar c)).isEmpty then none
    else some (pre ++ rest.takeWhile (fun c => !stopChar c),
               rest.drop (rest.takeWhile (fun c => !stopChar c)).length)

/-- One anchored match attempt of `\((https?://[^)]+)\)` at the head of `l`:
a literal `(`, the scheme, a maximal nonempty run of non-`)` characters, a
literal `)`.  Returns the captured group (without the parentheses) and the
remainder of the input after the closing parenthesis. -/
def tryMatch2 (l : PyStr) : Option (PyStr × PyStr) :=
  match l with
  | c :: rest =>
    if c = '(' then
      match matchScheme rest with
      | none => none
      | some (pre, rest2) =>
        if (rest2.takeWhile (fun d => d != ')')).isEmpty then none
        else
          match rest2.drop (rest2.takeWhile (fun d => d != ')')).length with
          | ')' :: rest3 => some (pre ++ rest2.takeWhile (fun d => d != ')'), rest3)
          | _ => none
    else none
  | [] => none

/-- `re.findall` scan for the bare-URL regex, with explicit fuel (each step
consumes at least one character, so `l.length` fuel suffices). -/
def findall1F : Nat → PyStr → List PyStr
  | _, [] => []
  | 0, _ :: _ => []
  | f + 1, c :: rest =>
    match tryMatch1 (c :: rest) with
    | some (m, rest') => m :: findall1F f rest'
    | none => findall1F f rest

/-- `re.findall(r"https?://[^\s)>\]]+", text)`. -/
def findall1 (l : PyStr) : List PyStr := findall1F l.length l

/-- `re.findall` scan for the markdown-link regex, with explicit fuel. -/
def findall2F : Nat → PyStr → List PyStr
  | _, [] => []
  | 0, _ :: _ => []
  | f + 1, c :: rest =>
    match tryMatch2 (c :: rest) with
    | some (m, rest') => m :: findall2F f rest'
    | none => findall2F f rest

/-- `re.findall(r"\((https?://[^)]+)\)", text)` (list of captured groups). -/
def findall2 (l : PyStr) : List PyStr := findall2F l.length l

/-- The elements of the Python set `raw_urls`: union of both findall results. -/
def rawMatches (text : PyStr) : List PyStr := findall1 text ++ findall2 text

/-- Python whitespace characters stripped by `str.strip()` (ASCII part). -/
def wsChar (c : Char) : Bool :=
  c == ' ' || c == '\t' || c == '\n' || c == '\r' || c == '\x0b' || c == '\x0c'

/-- The trailing-punctuation set of `rstrip(".,);]")`. -/
def trailPunct (c : Char) : Bool :=
  c == '.' || c == ',' || c == ')' || c == ';' || c == ']'

/-- `str.rstrip` with the character class `p`. -/
def rstripBy (p : Char → Bool) (l : PyStr) : PyStr := (l.reverse.dropWhile p).reverse

/-- `u.strip().rstrip(".,);]")` from the cleaning loop of `extract_urls`. -/
def cleanUrl (l : PyStr) : PyStr := rstripBy trailPunct (rstripBy wsChar (l.dropWhile wsChar))

/-- Characters allowed in a URL scheme by `urllib.parse` (after the leading
alphabetic character). -/
def schemeChar (c : Char) : Bool := c.isAlpha || c.isDigit || c == '+' || c == '-' || c == '.'

/-- Does the list start with an alphabetic character? -/
def isAlphaHead (l : PyStr) : Bool :=
  match l with
  | c :: _ => c.isAlpha
  | [] => false

/-- The `scheme` attribute computed by `urlparse`: the text before the first
colon when it is a well-formed scheme (leading letter, scheme characters),
lower-cased; otherwise the empty scheme. -/
def pyScheme (u : PyStr) : PyStr :=
  let pre := u.takeWhile (fun c => c != ':')
  if decide (pre.length < u.length) && isAlphaHead pre && pre.all schemeChar then
    pre.map Char.toLower
  else []

/-- The filter `parsed.scheme.startswith("http")` of `extract_urls`. -/
def schemeOkB (u : PyStr) : Bool := List.isPrefixOf "http".toList (pyScheme u)

/-- The cleaning / dedup loop of `extract_urls`: iterate over the
set-iteration order `raw`; clean each candidate; `continue` on candidates
whose parsed scheme does not start with `http`; append unseen survivors;
after each accepted candidate, `break` once `cap` entries are collected.
In the Python code the set `seen` always holds exactly the elements of the
list `cleaned`, so membership is tested on `cleaned` directly. -/
def extractLoop (cap : Nat) : List PyStr → List PyStr → List PyStr
  | [], cleaned => cleaned
  | u :: rest, cleaned =>
    if schemeOkB (cleanUrl u) then
      if cleanUrl u ∈ cleaned then
        if cap ≤ cleaned.length then cleaned
        else extractLoop cap rest cleaned
      else
        if cap ≤ cleaned.length + 1 then cleaned ++ [cleanUrl u]
        else extractLoop cap rest (cleaned ++ [cleanUrl u])
    else extractLoop cap rest cleaned

/-- `extract_urls(markdown_text, cap)`, as a function of the set-iteration
order `raw` of `raw_urls` (see `validEnum`). -/
def extract_urls (raw : List PyStr) (cap : Nat) : List PyStr := extractLoop cap raw []

/-- `raw` is a possible iteration order of the set `raw_urls` built from
`text`: no duplicates, and exactly the elements of both findall results. -/
def validEnum (text : PyStr) (raw : List PyStr) : Prop :=
  raw.Nodup ∧ (∀ s ∈ raw, s ∈ rawMatches text) ∧ (∀ s ∈ rawMatches text, s ∈ raw)

/-! ### Link checker — `check_url` (app.py lines 207-220)

The two HTTP probes are external: each either produces a numeric status code
(`requests` follows redirects itself before returning it) or raises a
transport exception whose class name ends up in the diagnostic note.
`check_url` receives the outcome of the HEAD probe and the outcome the GET
probe would have (the latter is only consulted on escalation).
-/

/-- Outcome of one HTTP probe. -/
inductive ProbeResult
  | status (code : Nat)
  | exn (name : PyStr)
deriving DecidableEq

/-- Decimal digit character. -/
def digitChar (n : Nat) : Char :=
  if n = 0 then '0' else if n = 1 then '1' else if n = 2 then '2'
  else if n = 3 then '3' else if n = 4 then '4' else if n = 5 then '5'
  else if n = 6 then '6' else if n = 7 then '7' else if n = 8 then '8' else '9'

/-- Decimal digits of a natural number, with fuel (`n + 1` suffices). -/
def natDigitsF : Nat → Nat → PyStr
  | 0, _ => []
  | f + 1, n => if n < 10 then [digitChar n] else natDigitsF f (n / 10) ++ [digitChar (n % 10)]

/-- Python `str(n)` for a natural number, as used by the f-strings. -/
def pyNatStr (n : Nat) : PyStr := natDigitsF (n + 1) n

/-- Python `str(i)` for an integer. -/
def pyIntStr (i : Int) : PyStr :=
  if i < 0 then '-' :: pyNatStr i.natAbs else pyNatStr i.toNat

/-- The note `f"error: {e.__class__.__name__}"` of the exception handler. -/
def errNote (name : PyStr) : PyStr := "error: ".toList ++ name

/-- The final three-way `if` chain of `check_url`, applied to the effective
status `code` (the HEAD status, or the GET status after escalation). -/
def verdictOf (code : Nat) : Bool × PyStr :=
  if 200 ≤ code ∧ code < 300 then (true, pyNatStr code)
  else if 300 ≤ code ∧ code < 400 then (true, pyNatStr code ++ " (redirect)".toList)
  else (false, pyNatStr code)

/-- `check_url(url)` given the outcomes of the HEAD probe and of the GET
probe (consulted only when the HEAD status escalates).  The Python `try`
block wraps both probes, so a raised exception from either resolves to
`(False, "error: <class name>")`. -/
def check_url (headR getR : ProbeResult) : Bool × PyStr :=
  match headR with
  | .exn n => (false, errNote n)
  | .status c0 =>
    if c0 = 403 ∨ c0 = 405 ∨ 500 ≤ c0 then
      match getR with
      | .exn n => (false, errNote n)
      | .status c2 => verdictOf c2
    else verdictOf c0

/-! ### Metadata resolver — `build_metadata_json` (app.py lines 222-254)

The resolver asks the generation service for a strict-JSON list of records
and post-validates it.  The response is external; the model starts from its
parse outcome: `json.loads` raising (`unparseable`), parsing to a non-list
value (`nonList`, which the comprehension either empties out or which raises
and is caught — the function returns `[]` either way), or parsing to a list
whose items are dictionaries (`PyItem.dict`) or other values
(`PyItem.nonDict`).
-/

/-- One metadata record (a parsed JSON dictionary).  `year` is `none` for a
missing or `null` year, `url` is `none` when the `"url"` key is absent. -/
structure MRow where
  title : PyStr
  type : PyStr
  year : Option Int
  access : PyStr
  why : PyStr
  use : PyStr
  url : Option PyStr
deriving DecidableEq

/-- One element of the parsed JSON list. -/
inductive PyItem
  | dict (r : MRow)
  | nonDict
deriving DecidableEq

/-- Parse outcome of the resolver response. -/
inductive RResp
  | unparseable
  | nonList
  | arr (items : List PyItem)
deriving DecidableEq

/-- The comprehension filter
`isinstance(row, dict) and row.get("url") in allowed`. -/
def rowOk (allowed : List PyStr) (it : PyItem) : Option MRow :=
  match it with
  | .dict r =>
    (match r.url with
     | some u => if u ∈ allowed then some r else none
     | none => none)
  | .nonDict => none

/-- `{u: i for i, u in enumerate(verified_urls)}[u]`: the index assigned by
the dict comprehension, i.e. the index of the LAST occurrence of `u`. -/
def dictIdx (l : List PyStr) (u : PyStr) : Option Nat :=
  l.enum.foldl (fun acc p => if p.2 = u then some p.1 else acc) none

/-- The sort key `order.get(r["url"], 1e9)`; the out-of-range default `1e9`
is modelled as `verified.length`, which likewise exceeds every real index. -/
def keyOf (verified : List PyStr) (r : MRow) : Nat :=
  match r.url with
  | some u => (dictIdx verified u).getD verified.length
  | none => verified.length

/-- `data.sort(key=...)`: Python `list.sort` is stable, and a stable sort by
a natural-number key equals the concatenation of the key's fibres in
ascending key order.  All keys lie in `[0, verified.length]`. -/
def pySortByKey (verified : List PyStr) (data : List MRow) : List MRow :=
  (List.range (verified.length + 1)).flatMap
    (fun i => data.filter (fun r => keyOf verified r == i))

/-- `build_metadata_json(verified_urls)` given the parse outcome of the
resolver response.  On empty input the function returns `[]` before any
network call; on parse failure the `except` branch returns `[]`. -/
def build_metadata_json (verified : List PyStr) (resp : RResp) : List MRow :=
  if verified = [] then []
  else
    match resp with
    | .unparseable => []
    | .nonList => []
    | .arr items => pySortByKey verified (items.filterMap (rowOk verified))

/-! ### Table renderer — `render_resource_table` (app.py lines 256-271) -/

/-- The fullwidth vertical bar substituted for `|` in free-text fields. -/
def fullwidthBar : Char := '｜'

/-- `.replace("|", "｜")` applied to `title` and `why_aligns`. -/
def escPipe (l : PyStr) : PyStr := l.map (fun c => if c = '|' then fullwidthBar else c)

/-- `r.get("year", "") or ""`: an absent or null year renders empty, and so
does the falsy year `0`. -/
def yearStr : Option Int → PyStr
  | none => []
  | some i => if i = 0 then [] else pyIntStr i

/-- `r.get("url", "")`. -/
def urlOf (r : MRow) : PyStr :=
  match r.url with
  | some u => u
  | none => []

/-- The cell separator `" | "` of the row f-string. -/
def sepMid : PyStr := " | ".toList

/-- The row f-string up to and excluding the `(` of `[Link](`. -/
def rowPreA (r : MRow) : PyStr :=
  "| ".toList ++ escPipe r.title ++ sepMid ++ r.type ++ sepMid ++ yearStr r.year ++
    sepMid ++ r.access ++ sepMid ++ escPipe r.why ++ sepMid ++ r.use ++ " | [Link]".toList

/-- One table row:
`f"| {title} | {typ} | {year} | {acc} | {why} | {use} | [Link]({url}) |"`. -/
def rowLine (r : MRow) : PyStr := rowPreA r ++ '(' :: (urlOf r ++ ')' :: " |".toList)

/-- `"\n".join(lines)`. -/
def bodyText : List MRow → PyStr
  | [] => []
  | [r] => rowLine r
  | r :: r2 :: rest => rowLine r ++ '\n' :: bodyText (r2 :: rest)

/-- The two header lines of the table (each ends with a newline). -/
def headerStr : PyStr :=
  ("| Title | Type | Year | Access Type | Why it aligns | Suggested Use | URL |\n" ++
   "|-------|------|------|------------|---------------|---------------|-----|\n").toList

/-- The fixed placeholder returned for an empty record list. -/
def placeholderStr : PyStr := "_No verified resources were available._".toList

/-- `render_resource_table(rows)`. -/
def render_resource_table (rows : List MRow) : PyStr :=
  if rows = [] then placeholderStr else headerStr ++ bodyText rows

/-! ### Repair orchestrator — the retry loop (app.py lines 307-328)

The loop `while len(good) < 6 and attempt < MAX_RETRIES` re-invokes the
generation service, extracts the URLs of the new chunk only, checks them and
merges the newly alive ones into `good`.  The generation call, the link
checker and the extraction of a chunk (whose result order again depends on
set iteration) are passed as oracles, exactly the quantification the spec
uses for the orchestrator's properties.  A generation failure is an
`Except.error` and — as in the Python code, which has no handler around
`call_model` — propagates out of the loop.  The fuel argument is the
remaining retry budget `MAX_RETRIES - attempt`.
-/

def MAX_RETRIES : Nat := 2

/-- `for (u, ok, _) in results_new: if ok and u not in good: good.append(u)`. -/
def mergeNew (checkFn : PyStr → Bool × PyStr) (good : List PyStr)
    (urlsNew : List PyStr) : List PyStr :=
  urlsNew.foldl (fun g u => if (checkFn u).1 = true ∧ u ∉ g then g ++ [u] else g) good

/-- The retry loop.  Returns the final `good` list, the final `attempt`
counter and the `attempts_text` transcript, or the propagated generation
error. -/
def retryLoopF (gen : Nat → Except PyStr PyStr) (checkFn : PyStr → Bool × PyStr)
    (extractFn : PyStr → List PyStr) :
    Nat → List PyStr → Nat → PyStr → List (Nat × PyStr) →
    Except PyStr (List PyStr × Nat × List (Nat × PyStr))
  | 0, good, attempt, _, transcript => .ok (good, attempt, transcript)
  | fuel + 1, good, attempt, ctx, transcript =>
    if good.length < 6 then
      match gen (attempt + 1) with
      | .error e => .error e
      | .ok chunk =>
        retryLoopF gen checkFn extractFn fuel
          (mergeNew checkFn good (extractFn chunk))
          (attempt + 1)
          (ctx ++ "\n\n".toList ++ chunk)
          (transcript ++ [(attempt + 1, chunk)])
    else .ok (good, attempt, transcript)

/-- The whole retry phase, starting from the URLs verified on the initial
draft, with the full retry budget. -/
def runRetryLoop (gen : Nat → Except PyStr PyStr) (checkFn : PyStr → Bool × PyStr)
    (extractFn : PyStr → List PyStr) (good0 : List PyStr) (draft : PyStr) :
    Except PyStr (List PyStr × Nat × List (Nat × PyStr)) :=
  retryLoopF gen checkFn extractFn MAX_RETRIES good0 0 draft []

/-! ### Derived predicates used by the claims -/

/-- The distinct accepted candidates of an enumeration, as a finite set. -/
def acceptSet (raw : List PyStr) : Finset PyStr :=
  ((raw.map cleanUrl).filter schemeOkB).toFinset

/-- Does `l` contain the substring `http` (the necessary start of any match
of either regex)? -/
def containsHttpB : PyStr → Bool
  | [] => false
  | c :: rest => List.isPrefixOf "http".toList (c :: rest) || containsHttpB rest

/-- A URL string of the shape the extractor itself emits and the renderer can
round-trip: an HTTP scheme, a nonempty remainder free of regex stop
characters, not ending in strippable punctuation. -/
def cleanShapeB (u : PyStr) : Bool :=
  match matchScheme u with
  | some (_, tail) =>
    !tail.isEmpty && tail.all (fun c => !stopChar c) &&
      (match tail.getLast? with
       | some c => !trailPunct c
       | none => false)
  | none => false

/-- Well-formedness of a metadata record for the round-trip property: the
record carries a well-shaped URL and its free-text fields contain no `http`
substring (so they embed no URL of their own). -/
def wfRowB (r : MRow) : Bool :=
  (match r.url with
   | some u => cleanShapeB u
   | none => false) &&
  !containsHttpB r.title && !containsHttpB r.type &&
  !containsHttpB r.access && !containsHttpB r.why && !containsHttpB r.use

/-! ### Concrete fixtures used by the claim theorems -/

def urlA : PyStr := "http://a.com".toList

def urlB : PyStr := "http://b.com".toList

def urlAdot : PyStr := "http://a.com.".toList

/-- A text with two bare URLs; first-seen order is `urlA` then `urlB`. -/
def textAB : PyStr := "http://a.com http://b.com".toList

/-- A text in which `http://a.com` occurs twice (once with a trailing
period) and `http://b.com` once. -/
def textDup : PyStr := "http://a.com http://a.com. http://b.com".toList

/-- A set-iteration order of `textDup`'s raw matches reaching `urlB` first. -/
def enumDup : List PyStr := [urlB, urlA, urlAdot]

/-- A generation oracle that raises on every call. -/
def genFailW : Nat → Except PyStr PyStr := fun _ => .error "APIConnectionError".toList

/-- A generation oracle that succeeds on the first retry and raises on the
second. -/
def genFail2W : Nat → Except PyStr PyStr :=
  fun n => if n = 1 then .ok [] else .error "Timeout".toList

/-- A link-check oracle finding every URL dead. -/
def chkW : PyStr → Bool × PyStr := fun _ => (false, "404".toList)

/-- An extraction oracle finding no URLs. -/
def extW : PyStr → List PyStr := fun _ => []

/-- A generation oracle producing empty chunks. -/
def genOkW : Nat → PyStr := fun _ => []

/-- Six already-verified URLs. -/
def goodSix : List PyStr :=
  ["a".toList, "b".toList, "c".toList, "d".toList, "e".toList, "f".toList]

/-- A record whose url field is not an HTTP URL. -/
def rowX : MRow := ⟨[], [], none, [], [], [], some "x".toList⟩

/-- A well-formed record carrying `urlA`. -/
def rowA : MRow := ⟨"T".toList, "Report".toList, none, "Open access".toList,
  "W".toList, "Core reading".toList, some urlA⟩

/-- A record carrying `urlA`, used twice in the duplicate-record claims. -/
def rowU : MRow := ⟨"T".toList, [], none, [], [], [], some urlA⟩

/-! ### Lemmas about the extractor loop -/

/-- The loop only ever appends: everything already collected stays. -/
theorem mem_extractLoop_of_mem {cap : Nat} {raw cleaned : List PyStr} {x : PyStr}
    (hx : x ∈ cleaned) : x ∈ extractLoop cap raw cleaned := by
  induction raw generalizing cleaned with
  | nil => simpa [extractLoop] using hx
  | cons u rest ih =>
    simp only [extractLoop]
    split
    · split
      · split
        · exact hx
        · exact ih hx
      · split
        · exact List.mem_append_left _ hx
        · exact ih (List.mem_append_left _ hx)
    · exact ih hx

/-- The collected list never acquires duplicates. -/
theorem extractLoop_nodup {cap : Nat} {raw cleaned : List PyStr} (h : cleaned.Nodup) :
    (extractLoop cap raw cleaned).Nodup := by
  induction raw generalizing cleaned with
  | nil => simpa [extractLoop]
  | cons u rest ih =>
    simp only [extractLoop]
    split
    · split
      · split
        · exact h
        · exact ih h
      · rename_i hmem
        have h' : (cleaned ++ [cleanUrl u]).Nodup := by
          simp [List.nodup_append, h, hmem]
        split
        · exact h'
        · exact ih h'
    · exact ih h

/-- Every element of the loop's output was already collected or is the
cleaned form of an accepted raw candidate. -/
theorem mem_of_mem_extractLoop {cap : Nat} {raw cleaned : List PyStr} {x : PyStr}
    (hx : x ∈ extractLoop cap raw cleaned) :
    x ∈ cleaned ∨ ∃ r ∈ raw, x = cleanUrl r ∧ schemeOkB x = true := by
  induction raw generalizing cleaned with
  | nil => left; simpa [extractLoop] using hx
  | cons u rest ih =>
    have thisCase : x ∈ cleaned ++ [cleanUrl u] → schemeOkB (cleanUrl u) = true →
        x ∈ cleaned ∨ ∃ r ∈ u :: rest, x = cleanUrl r ∧ schemeOkB x = true := by
      intro hx' hs
      rcases List.mem_append.mp hx' with h | h
      · exact Or.inl h
      · simp only [List.mem_singleton] at h
        exact Or.inr ⟨u, List.mem_cons_self u rest, h, h ▸ hs⟩
    have liftRest : x ∈ cleaned ∨ (∃ r ∈ rest, x = cleanUrl r ∧ schemeOkB x = true) →
        x ∈ cleaned ∨ ∃ r ∈ u :: rest, x = cleanUrl r ∧ schemeOkB x = true := by
      rintro (h | ⟨r, hr, hq⟩)
      · exact Or.inl h
      · exact Or.inr ⟨r, List.mem_cons_of_mem _ hr, hq⟩
    simp only [extractLoop] at hx
    split at hx
    · rename_i hs
      split at hx
      · split at hx
        · exact Or.inl hx
        · exact liftRest (ih hx)
      · split at hx
        · exact thisCase hx hs
        · rcases ih hx with h | ⟨r, hr, hq⟩
          · exact thisCase h hs
          · exact Or.inr ⟨r, List.mem_cons_of_mem _ hr, hq⟩
    · exact liftRest (ih hx)

theorem acceptSet_cons_pos {u : PyStr} {rest : List PyStr}
    (h : schemeOkB (cleanUrl u) = true) :
    acceptSet (u :: rest) = insert (cleanUrl u) (acceptSet rest) := by
  simp [acceptSet, List.filter_cons, h]

theorem acceptSet_cons_neg {u : PyStr} {rest : List PyStr}
    (h : schemeOkB (cleanUrl u) = false) :
    acceptSet (u :: rest) = acceptSet rest := by
  simp [acceptSet, List.filter_cons, h]

theorem cleanUrl_mem_acceptSet {raw : List PyStr} {r : PyStr} (hr : r ∈ raw)
    (hok : schemeOkB (cleanUrl r) = true) : cleanUrl r ∈ acceptSet raw := by
  simp only [acceptSet, List.mem_toFinset, List.mem_filter, List.mem_map]
  exact ⟨⟨r, hr, rfl⟩, hok⟩

/-- If the cap leaves room for every distinct accepted candidate not yet
collected, then every accepted candidate makes it into the output. -/
theorem mem_extractLoop_of_cap {cap : Nat} {raw cleaned : List PyStr}
    (hnd : cleaned.Nodup)
    (hcap : cleaned.length + (acceptSet raw \ cleaned.toFinset).card ≤ cap) :
    ∀ r ∈ raw, schemeOkB (cleanUrl r) = true → cleanUrl r ∈ extractLoop cap raw cleaned := by
  induction raw generalizing cleaned with
  | nil => simp
  | cons u rest ih =>
    intro r hr hok
    have hmemAcc : cleanUrl r ∈ acceptSet (u :: rest) := cleanUrl_mem_acceptSet hr hok
    simp only [extractLoop]
    by_cases hs : schemeOkB (cleanUrl u) = true
    · rw [acceptSet_cons_pos hs] at hcap hmemAcc
      rw [if_pos hs]
      by_cases hm : cleanUrl u ∈ cleaned
      · have hins : insert (cleanUrl u) (acceptSet rest) \ cleaned.toFinset =
            acceptSet rest \ cleaned.toFinset :=
          Finset.insert_sdiff_of_mem _ (List.mem_toFinset.mpr hm)
        rw [hins] at hcap
        rw [if_pos hm]
        by_cases hbreak : cap ≤ cleaned.length
        · rw [if_pos hbreak]
          have hcard : (acceptSet rest \ cleaned.toFinset).card = 0 := by omega
          have hempty : acceptSet rest \ cleaned.toFinset = ∅ := Finset.card_eq_zero.mp hcard
          rcases Finset.mem_insert.mp hmemAcc with he | hmem2
          · rw [he]; exact hm
          · by_contra hrn
            have hx : cleanUrl r ∈ acceptSet rest \ cleaned.toFinset :=
              Finset.mem_sdiff.mpr ⟨hmem2, fun hc => hrn (List.mem_toFinset.mp hc)⟩
            rw [hempty] at hx
            exact absurd hx (Finset.not_mem_empty _)
        · rw [if_neg hbreak]
          rcases List.mem_cons.mp hr with rfl | hr'
          · exact mem_extractLoop_of_mem hm
          · exact ih hnd hcap r hr' hok
      · have hunew : cleanUrl u ∈ insert (cleanUrl u) (acceptSet rest) \ cleaned.toFinset :=
          Finset.mem_sdiff.mpr
            ⟨Finset.mem_insert_self _ _, fun hc => hm (List.mem_toFinset.mp hc)⟩
        have hpos : 1 ≤ (insert (cleanUrl u) (acceptSet rest) \ cleaned.toFinset).card :=
          Finset.card_pos.mpr ⟨_, hunew⟩
        rw [if_neg hm]
        by_cases hbreak : cap ≤ cleaned.length + 1
        · rw [if_pos hbreak]
          have hcard1 : (insert (cleanUrl u) (acceptSet rest) \ cleaned.toFinset).card ≤ 1 := by
            omega
          by_cases hrc : cleanUrl r ∈ cleaned
          · exact List.mem_append_left _ hrc
          · have h1 : cleanUrl r ∈ insert (cleanUrl u) (acceptSet rest) \ cleaned.toFinset :=
              Finset.mem_sdiff.mpr ⟨hmemAcc, fun hc => hrc (List.mem_toFinset.mp hc)⟩
            have heq : cleanUrl r = cleanUrl u := Finset.card_le_one.mp hcard1 _ h1 _ hunew
            rw [heq]
            exact List.mem_append_right _ (List.mem_singleton_self _)
        · rw [if_neg hbreak]
          have hnd' : (cleaned ++ [cleanUrl u]).Nodup := by
            simp [List.nodup_append, hnd, hm]
          have hTF : (cleaned ++ [cleanUrl u]).toFinset =
              insert (cleanUrl u) cleaned.toFinset := by
            ext x
            simp [List.toFinset_append, or_comm]
          have hsdiff : acceptSet rest \ (cleaned ++ [cleanUrl u]).toFinset ⊆
              (insert (cleanUrl u) (acceptSet rest) \ cleaned.toFinset).erase (cleanUrl u) := by
            rw [hTF]
            intro x hx
            rcases Finset.mem_sdiff.mp hx with ⟨hx1, hx2⟩
            rw [Finset.mem_insert] at hx2
            push_neg at hx2
            exact Finset.mem_erase.mpr
              ⟨hx2.1, Finset.mem_sdiff.mpr ⟨Finset.mem_insert_of_mem hx1, hx2.2⟩⟩
          have hcard' : (acceptSet rest \ (cleaned ++ [cleanUrl u]).toFinset).card ≤
              (insert (cleanUrl u) (acceptSet rest) \ cleaned.toFinset).card - 1 := by
            calc (acceptSet rest \ (cleaned ++ [cleanUrl u]).toFinset).card ≤
                ((insert (cleanUrl u) (acceptSet rest) \ cleaned.toFinset).erase
                  (cleanUrl u)).card := Finset.card_le_card hsdiff
              _ = _ := Finset.card_erase_of_mem hunew
          have hcap' : (cleaned ++ [cleanUrl u]).length +
              (acceptSet rest \ (cleaned ++ [cleanUrl u]).toFinset).card ≤ cap := by
            simp only [List.length_append, List.length_singleton]
            omega
          rcases List.mem_cons.mp hr with rfl | hr'
          · exact mem_extractLoop_of_mem
              (List.mem_append_right _ (List.mem_singleton_self _))
          · exact ih hnd' hcap' r hr' hok
    · have hs' : schemeOkB (cleanUrl u) = false := by simpa using hs
      rw [acceptSet_cons_neg hs'] at hcap
      rw [if_neg hs]
      rcases List.mem_cons.mp hr with rfl | hr'
      · rw [hs'] at hok; exact absurd hok (by simp)
      · exact ih hnd hcap r hr' hok
/-! ### Lemmas about the findall scanners -/

theorem matchScheme_eq_append {l pre rest : PyStr} (h : matchScheme l = some (pre, rest)) :
    l = pre ++ rest ∧ (pre = "https://".toList ∨ pre = "http://".toList) := by
  unfold matchScheme at h
  split at h
  · rename_i hp
    rw [List.isPrefixOf_iff_prefix] at hp
    obtain ⟨t, ht⟩ := hp
    simp only [Option.some.injEq, Prod.mk.injEq] at h
    obtain ⟨hpre, hrest⟩ := h
    have hlen : ("https://".toList).length = 8 := by decide
    have hdrop : l.drop 8 = t := by rw [← ht, ← hlen, List.drop_left]
    subst hpre
    rw [← hrest, hdrop]
    exact ⟨ht.symm, Or.inl rfl⟩
  · split at h
    · rename_i hp
      rw [List.isPrefixOf_iff_prefix] at hp
      obtain ⟨t, ht⟩ := hp
      simp only [Option.some.injEq, Prod.mk.injEq] at h
      obtain ⟨hpre, hrest⟩ := h
      have hlen : ("http://".toList).length = 7 := by decide
      have hdrop : l.drop 7 = t := by rw [← ht, ← hlen, List.drop_left]
      subst hpre
      rw [← hrest, hdrop]
      exact ⟨ht.symm, Or.inr rfl⟩
    · cases h

theorem tryMatch1_some_spec {l m r : PyStr} (h : tryMatch1 l = some (m, r)) :
    ("https://".toList <+: m ∨ "http://".toList <+: m) ∧ r.length < l.length := by
  unfold tryMatch1 at h
  cases hms : matchScheme l with
  | none => rw [hms] at h; cases h
  | some p =>
    obtain ⟨pre, rest⟩ := p
    rw [hms] at h
    obtain ⟨hl, hpre⟩ := matchScheme_eq_append hms
    simp only at h
    split at h
    · cases h
    · rename_i hrun
      simp only [Option.some.injEq, Prod.mk.injEq] at h
      obtain ⟨hm, hr⟩ := h
      constructor
      · rcases hpre with hp | hp
        · exact Or.inl (hm ▸ hp ▸ ⟨_, rfl⟩)
        · exact Or.inr (hm ▸ hp ▸ ⟨_, rfl⟩)
      · have hrunlen : 1 ≤ (rest.takeWhile (fun c => !stopChar c)).length := by
          cases hq : rest.takeWhile (fun c => !stopChar c) with
          | nil => rw [hq] at hrun; simp at hrun
          | cons a t => simp [hq]
        have h7 : 7 ≤ pre.length := by
          rcases hpre with hp | hp <;> subst hp <;> decide
        have hlens : l.length = pre.length + rest.length := by
          rw [hl, List.length_append]
        have hrlen : r.length = rest.length -
            (rest.takeWhile (fun c => !stopChar c)).length := by
          rw [← hr, List.length_drop]
        have htw : (rest.takeWhile (fun c => !stopChar c)).length ≤ rest.length :=
          (List.takeWhile_sublist _).length_le
        omega

theorem tryMatch2_some_spec {l m r : PyStr} (h : tryMatch2 l = some (m, r)) :
    ("https://".toList <+: m ∨ "http://".toList <+: m) ∧ r.length < l.length := by
  unfold tryMatch2 at h
  cases l with
  | nil => cases h
  | cons c rest =>
    simp only at h
    split at h
    · cases hms : matchScheme rest with
      | none => rw [hms] at h; cases h
      | some p =>
        obtain ⟨pre, rest2⟩ := p
        rw [hms] at h
        obtain ⟨hl, hpre⟩ := matchScheme_eq_append hms
        simp only at h
        split at h
        · cases h
        · rename_i hrun
          split at h
          · rename_i rest3 hdrop
            simp only [Option.some.injEq, Prod.mk.injEq] at h
            obtain ⟨hm, hr⟩ := h
            constructor
            · rcases hpre with hp | hp
              · exact Or.inl (hm ▸ hp ▸ ⟨_, rfl⟩)
              · exact Or.inr (hm ▸ hp ▸ ⟨_, rfl⟩)
            · have hd : (rest2.drop
                  (rest2.takeWhile (fun d => d != ')')).length).length =
                  rest2.length - (rest2.takeWhile (fun d => d != ')')).length :=
                List.length_drop _ _
              rw [hdrop] at hd
              have h7 : 7 ≤ pre.length := by
                rcases hpre with hp | hp <;> subst hp <;> decide
              have hlens : rest.length = pre.length + rest2.length := by
                rw [hl, List.length_append]
              have htw : (rest2.takeWhile (fun d => d != ')')).length ≤ rest2.length :=
                (List.takeWhile_sublist _).length_le
              simp only [List.length_cons] at hd ⊢
              rw [← hr]
              omega
          · cases h
    · cases h

theorem findall1F_fuel {f1 f2 : Nat} {l : PyStr} (h1 : l.length ≤ f1) (h2 : l.length ≤ f2) :
    findall1F f1 l = findall1F f2 l := by
  induction f1 generalizing f2 l with
  | zero =>
    have hl : l = [] := List.length_eq_zero.mp (Nat.le_zero.mp h1)
    subst hl; cases f2 <;> rfl
  | succ f ih =>
    cases l with
    | nil => cases f2 <;> rfl
    | cons c rest =>
      cases f2 with
      | zero => simp at h2
      | succ g =>
        simp only [findall1F]
        cases hm : tryMatch1 (c :: rest) with
        | none =>
          simp only [List.length_cons] at h1 h2
          refine ih ?_ ?_ <;> omega
        | some p =>
          obtain ⟨m, r⟩ := p
          have hlt := (tryMatch1_some_spec hm).2
          simp only [List.length_cons] at h1 h2 hlt
          show m :: findall1F f r = m :: findall1F g r
          congr 1
          refine ih ?_ ?_ <;> omega

theorem findall2F_fuel {f1 f2 : Nat} {l : PyStr} (h1 : l.length ≤ f1) (h2 : l.length ≤ f2) :
    findall2F f1 l = findall2F f2 l := by
  induction f1 generalizing f2 l with
  | zero =>
    have hl : l = [] := List.length_eq_zero.mp (Nat.le_zero.mp h1)
    subst hl; cases f2 <;> rfl
  | succ f ih =>
    cases l with
    | nil => cases f2 <;> rfl
    | cons c rest =>
      cases f2 with
      | zero => simp at h2
      | succ g =>
        simp only [findall2F]
        cases hm : tryMatch2 (c :: rest) with
        | none =>
          simp only [List.length_cons] at h1 h2
          refine ih ?_ ?_ <;> omega
        | some p =>
          obtain ⟨m, r⟩ := p
          have hlt := (tryMatch2_some_spec hm).2
          simp only [List.length_cons] at h1 h2 hlt
          show m :: findall2F f r = m :: findall2F g r
          congr 1
          refine ih ?_ ?_ <;> omega

theorem findall1_skip {c : Char} {l : PyStr} (h : tryMatch1 (c :: l) = none) :
    findall1 (c :: l) = findall1 l := by
  simp only [findall1, List.length_cons, findall1F, h]

theorem findall2_skip {c : Char} {l : PyStr} (h : tryMatch2 (c :: l) = none) :
    findall2 (c :: l) = findall2 l := by
  simp only [findall2, List.length_cons, findall2F, h]

theorem findall1_match {l m r : PyStr} (h : tryMatch1 l = some (m, r)) :
    findall1 l = m :: findall1 r := by
  cases l with
  | nil => simp [tryMatch1, matchScheme] at h
  | cons c rest =>
    have hlt := (tryMatch1_some_spec h).2
    simp only [List.length_cons] at hlt
    simp only [findall1, List.length_cons, findall1F, h]
    congr 1
    exact findall1F_fuel (by omega) (le_refl _)

theorem findall2_match {l m r : PyStr} (h : tryMatch2 l = some (m, r)) :
    findall2 l = m :: findall2 r := by
  cases l with
  | nil => simp [tryMatch2] at h
  | cons c rest =>
    have hlt := (tryMatch2_some_spec h).2
    simp only [List.length_cons] at hlt
    simp only [findall2, List.length_cons, findall2F, h]
    congr 1
    exact findall2F_fuel (by omega) (le_refl _)

theorem tryMatch1_none_of_not_http {l : PyStr} (h : ¬ ("http".toList <+: l)) :
    tryMatch1 l = none := by
  unfold tryMatch1
  cases hm : matchScheme l with
  | none => rfl
  | some p =>
    obtain ⟨pre, rest⟩ := p
    obtain ⟨hl, hpre⟩ := matchScheme_eq_append hm
    exfalso
    apply h
    rcases hpre with hp | hp <;> subst hp <;> rw [hl]
    · refine ⟨"s://".toList ++ rest, ?_⟩
      rw [← List.append_assoc]
      rfl
    · refine ⟨"://".toList ++ rest, ?_⟩
      rw [← List.append_assoc]
      rfl

theorem tryMatch2_none {c : Char} {l : PyStr} (h : c ≠ '(' ∨ ¬ ("http".toList <+: l)) :
    tryMatch2 (c :: l) = none := by
  unfold tryMatch2
  simp only
  rcases h with h | h
  · rw [if_neg h]
  · by_cases hc : c = '('
    · rw [if_pos hc]
      cases hm : matchScheme l with
      | none => rfl
      | some p =>
        obtain ⟨pre, rest⟩ := p
        obtain ⟨hl, hpre⟩ := matchScheme_eq_append hm
        exfalso
        apply h
        rcases hpre with hp | hp <;> subst hp <;> rw [hl]
        · refine ⟨"s://".toList ++ rest, ?_⟩
          rw [← List.append_assoc]
          rfl
        · refine ⟨"://".toList ++ rest, ?_⟩
          rw [← List.append_assoc]
          rfl
    · rw [if_neg hc]

/-! ### Absence of `http` occurrences -/

theorem infixCons {l₁ l₂ : PyStr} {c : Char} (h : l₁ <:+: l₂) : l₁ <:+: c :: l₂ := by
  obtain ⟨s, t, ht⟩ := h
  exact ⟨c :: s, t, by rw [← ht]; simp⟩

theorem containsHttpB_false_iff {l : PyStr} :
    containsHttpB l = false ↔ ¬ ("http".toList <:+: l) := by
  induction l with
  | nil =>
    constructor
    · intro _ hinf
      have h4 := List.eq_nil_of_infix_nil hinf
      simp at h4
    · intro _
      rfl
  | cons c rest ih =>
    rw [containsHttpB, Bool.or_eq_false_iff, ih, List.infix_cons_iff]
    constructor
    · rintro ⟨h1, h2⟩ (hp | hi)
      · rw [← List.isPrefixOf_iff_prefix] at hp
        rw [hp] at h1
        cases h1
      · exact h2 hi
    · intro hn
      refine ⟨?_, fun hi => hn (Or.inr hi)⟩
      cases hq : List.isPrefixOf "http".toList (c :: rest)
      · rfl
      · exact absurd (Or.inl (List.isPrefixOf_iff_prefix.mp hq)) hn

/-- An occurrence of `http` starting at one of the first `l₁.length` positions
of `l₁ ++ l₂` would lie inside the window `l₁ ++ l₂.take 3`. -/
theorem no_http_at_of_window {l₁ l₂ : PyStr}
    (h : containsHttpB (l₁ ++ l₂.take 3) = false) :
    ∀ j, j < l₁.length → ¬ ("http".toList <+: (l₁ ++ l₂).drop j) := by
  intro j hj hp
  apply containsHttpB_false_iff.mp h
  obtain ⟨t, ht⟩ := hp
  have htake4 : ((l₁ ++ l₂).drop j).take 4 = "http".toList := by
    rw [← ht]
    exact List.take_left' (by decide)
  have hsplit : (l₁ ++ l₂).take (j + 4) =
      (l₁ ++ l₂).take j ++ "http".toList := by
    rw [List.take_add, htake4]
  have hwin : (l₁ ++ l₂).take (j + 4) =
      ((l₁ ++ l₂.take 3)).take (j + 4) := by
    have h1 : (l₁ ++ l₂).take (j + 4) =
        l₁.take (j + 4) ++ l₂.take (j + 4 - l₁.length) :=
      List.take_append_eq_append_take
    have h2 : (l₁ ++ l₂.take 3).take (j + 4) =
        l₁.take (j + 4) ++ (l₂.take 3).take (j + 4 - l₁.length) :=
      List.take_append_eq_append_take
    rw [h1, h2, List.take_take]
    congr 2
    omega
  have hinf : "http".toList <:+: (l₁ ++ l₂.take 3) := by
    refine List.IsInfix.trans ?_ ((List.take_prefix (j + 4) _).isInfix)
    rw [← hwin, hsplit]
    exact ⟨(l₁ ++ l₂).take j, [], by simp⟩
  exact hinf

/-- Skipping a whole segment in which no match can start. -/
theorem findall1_skip_seg {l₁ l₂ : PyStr}
    (h : containsHttpB (l₁ ++ l₂.take 3) = false) :
    findall1 (l₁ ++ l₂) = findall1 l₂ := by
  induction l₁ with
  | nil => simp
  | cons c t ih =>
    have h0 : tryMatch1 (c :: (t ++ l₂)) = none := by
      apply tryMatch1_none_of_not_http
      intro hp
      have h5 := no_http_at_of_window h 0 (by simp)
      apply h5
      simpa using hp
    rw [List.cons_append, findall1_skip h0]
    apply ih
    rw [containsHttpB_false_iff]
    intro hinf
    apply containsHttpB_false_iff.mp h
    rw [List.cons_append]
    exact infixCons hinf

theorem findall2_skip_seg {l₁ l₂ : PyStr}
    (h : containsHttpB (l₁ ++ l₂.take 3) = false)
    (h2 : ¬ ("http".toList <+: l₂)) :
    findall2 (l₁ ++ l₂) = findall2 l₂ := by
  induction l₁ with
  | nil => simp
  | cons c t ih =>
    have h1 : tryMatch2 (c :: (t ++ l₂)) = none := by
      by_cases hc : c = '('
      · refine tryMatch2_none (Or.inr ?_)
        intro hp
        rcases Nat.lt_or_ge 1 (c :: t).length with hlt | hge
        · have := no_http_at_of_window h 1 hlt
          simp only [List.cons_append, List.drop_succ_cons, List.drop_zero] at this
          exact this hp
        · have ht : t = [] := by
            simp only [List.length_cons] at hge
            exact List.length_eq_zero.mp (by omega)
          subst ht
          simp only [List.nil_append] at hp
          exact h2 hp
      · exact tryMatch2_none (Or.inl hc)
    rw [List.cons_append, findall2_skip h1]
    apply ih
    rw [containsHttpB_false_iff]
    intro hinf
    apply containsHttpB_false_iff.mp h
    rw [List.cons_append]
    exact infixCons hinf
/-! ### Cleaning preserves the scheme, accepted candidates -/

theorem not_http_of_head {c : Char} {l : PyStr} (hc : c ≠ 'h') :
    ¬ ("http".toList <+: c :: l) := by
  rintro ⟨t, ht⟩
  have ht' : 'h' :: ("ttp".toList ++ t) = c :: l := ht
  injection ht' with h1 _
  exact hc h1.symm

/-- `rstrip` keeps any prefix whose own `rstrip` is a no-op. -/
theorem prefix_rstripBy {p : Char → Bool} {a b : PyStr}
    (ha : a.reverse.dropWhile p = a.reverse) :
    a <+: rstripBy p (a ++ b) := by
  unfold rstripBy
  rw [List.reverse_append, List.dropWhile_append]
  split
  · rw [ha, List.reverse_reverse]
  · rw [List.reverse_append, List.reverse_reverse]
    exact ⟨_, rfl⟩

theorem cleanUrl_keeps_scheme {m : PyStr}
    (h : "https://".toList <+: m ∨ "http://".toList <+: m) :
    "https://".toList <+: cleanUrl m ∨ "http://".toList <+: cleanUrl m := by
  unfold cleanUrl
  rcases h with ⟨t, ht⟩ | ⟨t, ht⟩
  · left
    rw [← ht]
    have h1 : ("https://".toList ++ t).dropWhile wsChar = "https://".toList ++ t := rfl
    rw [h1]
    obtain ⟨t2, ht2⟩ :
        "https://".toList <+: rstripBy wsChar ("https://".toList ++ t) :=
      prefix_rstripBy (by decide)
    rw [← ht2]
    exact prefix_rstripBy (by decide)
  · right
    rw [← ht]
    have h1 : ("http://".toList ++ t).dropWhile wsChar = "http://".toList ++ t := rfl
    rw [h1]
    obtain ⟨t2, ht2⟩ :
        "http://".toList <+: rstripBy wsChar ("http://".toList ++ t) :=
      prefix_rstripBy (by decide)
    rw [← ht2]
    exact prefix_rstripBy (by decide)

theorem schemeOkB_http (t : PyStr) : schemeOkB ("http://".toList ++ t) = true := by
  simp only [schemeOkB, pyScheme]
  have htw : List.takeWhile (fun c => c != ':') ("http://".toList ++ t) =
      "http".toList := rfl
  rw [htw]
  have hc : (decide (("http".toList).length < ("http://".toList ++ t).length) &&
      isAlphaHead "http".toList && List.all "http".toList schemeChar) = true := by
    simp [List.length_append]
    refine ⟨by decide, by decide, by decide, by decide⟩
  rw [hc, if_pos rfl]
  decide

theorem schemeOkB_https (t : PyStr) : schemeOkB ("https://".toList ++ t) = true := by
  simp only [schemeOkB, pyScheme]
  have htw : List.takeWhile (fun c => c != ':') ("https://".toList ++ t) =
      "https".toList := rfl
  rw [htw]
  have hc : (decide (("https".toList).length < ("https://".toList ++ t).length) &&
      isAlphaHead "https".toList && List.all "https".toList schemeChar) = true := by
    simp [List.length_append]
    refine ⟨by decide, by decide, by decide, by decide, by decide⟩
  rw [hc, if_pos rfl]
  decide

theorem schemeOkB_of_scheme {u : PyStr}
    (h : "https://".toList <+: u ∨ "http://".toList <+: u) : schemeOkB u = true := by
  rcases h with ⟨t, ht⟩ | ⟨t, ht⟩ <;> rw [← ht]
  · exact schemeOkB_https t
  · exact schemeOkB_http t

theorem schemeOkB_cleanUrl_of_match {m : PyStr}
    (h : "https://".toList <+: m ∨ "http://".toList <+: m) :
    schemeOkB (cleanUrl m) = true :=
  schemeOkB_of_scheme (cleanUrl_keeps_scheme h)

theorem findall1F_mem_scheme {f : Nat} {l m : PyStr} (h : m ∈ findall1F f l) :
    "https://".toList <+: m ∨ "http://".toList <+: m := by
  induction f generalizing l with
  | zero => cases l <;> simp [findall1F] at h
  | succ f ih =>
    cases l with
    | nil => simp [findall1F] at h
    | cons c rest =>
      simp only [findall1F] at h
      cases hm : tryMatch1 (c :: rest) with
      | none =>
        rw [hm] at h
        exact ih h
      | some p =>
        obtain ⟨m2, r⟩ := p
        rw [hm] at h
        have h2 : m ∈ m2 :: findall1F f r := h
        rcases List.mem_cons.mp h2 with rfl | h'
        · exact (tryMatch1_some_spec hm).1
        · exact ih h'

theorem findall2F_mem_scheme {f : Nat} {l m : PyStr} (h : m ∈ findall2F f l) :
    "https://".toList <+: m ∨ "http://".toList <+: m := by
  induction f generalizing l with
  | zero => cases l <;> simp [findall2F] at h
  | succ f ih =>
    cases l with
    | nil => simp [findall2F] at h
    | cons c rest =>
      simp only [findall2F] at h
      cases hm : tryMatch2 (c :: rest) with
      | none =>
        rw [hm] at h
        exact ih h
      | some p =>
        obtain ⟨m2, r⟩ := p
        rw [hm] at h
        have h2 : m ∈ m2 :: findall2F f r := h
        rcases List.mem_cons.mp h2 with rfl | h'
        · exact (tryMatch2_some_spec hm).1
        · exact ih h'

theorem rawMatches_scheme {text m : PyStr} (hm : m ∈ rawMatches text) :
    "https://".toList <+: m ∨ "http://".toList <+: m := by
  rcases List.mem_append.mp hm with h | h
  · exact findall1F_mem_scheme h
  · exact findall2F_mem_scheme h

theorem extract_urls_nodup (raw : List PyStr) (cap : Nat) : (extract_urls raw cap).Nodup :=
  extractLoop_nodup List.nodup_nil

theorem mem_extract_urls_of_cap {raw : List PyStr} {cap : Nat}
    (hcap : (acceptSet raw).card ≤ cap) {r : PyStr} (hr : r ∈ raw)
    (hok : schemeOkB (cleanUrl r) = true) : cleanUrl r ∈ extract_urls raw cap := by
  apply mem_extractLoop_of_cap List.nodup_nil _ r hr hok
  simpa using hcap
/-! ### Splitting an occurrence across an append -/

theorem infix_append_split {t l₁ l₂ : PyStr} (h : t <:+: l₁ ++ l₂) :
    t <:+: l₁ ∨ t <:+: l₂ ∨
      ∃ s p, s ≠ [] ∧ p ≠ [] ∧ t = s ++ p ∧ s <:+ l₁ ∧ p <+: l₂ := by
  obtain ⟨a, b, hab⟩ := h
  rcases le_or_lt (a.length + t.length) l₁.length with hc1 | hc1
  · left
    have hl₁ : l₁ = List.take l₁.length (a ++ (t ++ b)) := by
      rw [List.append_assoc] at hab
      rw [hab, List.take_left]
    have ha' : List.take l₁.length (a ++ (t ++ b)) =
        a ++ List.take (l₁.length - a.length) (t ++ b) := by
      rw [List.take_append_eq_append_take, List.take_of_length_le (by omega)]
    have hb' : List.take (l₁.length - a.length) (t ++ b) =
        t ++ List.take (l₁.length - a.length - t.length) b := by
      rw [List.take_append_eq_append_take, List.take_of_length_le (by omega)]
    exact ⟨a, _, by rw [hl₁, ha', hb', List.append_assoc]⟩
  · rcases le_or_lt l₁.length a.length with hc2 | hc2
    · right; left
      have hl₂ : l₂ = List.drop l₁.length (a ++ (t ++ b)) := by
        rw [List.append_assoc] at hab
        rw [hab, List.drop_left]
      have ha' : List.drop l₁.length (a ++ (t ++ b)) =
          List.drop l₁.length a ++ (t ++ b) := by
        rw [List.drop_append_eq_append_drop, Nat.sub_eq_zero_of_le hc2, List.drop_zero]
      exact ⟨List.drop l₁.length a, b, by rw [hl₂, ha', List.append_assoc]⟩
    · right; right
      refine ⟨t.take (l₁.length - a.length), t.drop (l₁.length - a.length), ?_, ?_,
        (List.take_append_drop _ t).symm, ?_, ?_⟩
      · rw [← List.length_pos, List.length_take]
        omega
      · rw [← List.length_pos, List.length_drop]
        omega
      · -- a ++ t.take (l₁.length - a.length) = l₁, so the take is a suffix of l₁
        have hl₁ : l₁ = List.take l₁.length (a ++ (t ++ b)) := by
          rw [List.append_assoc] at hab
          rw [hab, List.take_left]
        have ha' : List.take l₁.length (a ++ (t ++ b)) =
            a ++ List.take (l₁.length - a.length) (t ++ b) := by
          rw [List.take_append_eq_append_take, List.take_of_length_le (by omega)]
        have hb' : List.take (l₁.length - a.length) (t ++ b) =
            List.take (l₁.length - a.length) t := by
          have h0 : l₁.length - a.length - t.length = 0 := by omega
          rw [List.take_append_eq_append_take, h0, List.take_zero, List.append_nil]
        have heq : l₁ = a ++ List.take (l₁.length - a.length) t := by
          conv_lhs => rw [hl₁, ha', hb']
        exact ⟨a, heq.symm⟩
      · -- l₂ begins with t.drop (l₁.length - a.length)
        have hl₂ : l₂ = List.drop l₁.length (a ++ (t ++ b)) := by
          rw [List.append_assoc] at hab
          rw [hab, List.drop_left]
        have ha' : List.drop l₁.length (a ++ (t ++ b)) =
            List.drop (l₁.length - a.length) (t ++ b) := by
          rw [List.drop_append_eq_append_drop, List.drop_eq_nil_of_le (by omega),
            List.nil_append]
        have hb' : List.drop (l₁.length - a.length) (t ++ b) =
            List.drop (l₁.length - a.length) t ++ b := by
          have h0 : l₁.length - a.length - t.length = 0 := by omega
          rw [List.drop_append_eq_append_drop, h0, List.drop_zero]
        have heq : l₂ = List.drop (l₁.length - a.length) t ++ b := by
          conv_lhs => rw [hl₂, ha', hb']
        exact ⟨b, heq.symm⟩

/-! ### Composing `http`-free texts -/

theorem containsHttp_short {l : PyStr} (h : l.length < 4) : containsHttpB l = false := by
  rw [containsHttpB_false_iff]
  intro hinf
  have hle := hinf.length_le
  have h4 : ("http".toList).length = 4 := by decide
  omega

theorem containsHttp_of_no_h {l : PyStr} (h : ∀ c ∈ l, c ≠ 'h') :
    containsHttpB l = false := by
  rw [containsHttpB_false_iff]
  rintro ⟨s, t, hst⟩
  have hmem : 'h' ∈ l := by
    rw [← hst]
    refine List.mem_append_left _ (List.mem_append_right _ ?_)
    decide
  exact h _ hmem rfl

/-- The nonempty suffixes of `http` of length at most 3 start with `t` or `p`. -/
theorem http_span_head {s p : PyStr} (hs : s ≠ []) (hp : p ≠ [])
    (ht : ("http".toList : PyStr) = s ++ p) : p.head? = some 't' ∨ p.head? = some 'p' := by
  have hlen : s.length + p.length = 4 := by
    have := congrArg List.length ht
    simp only [List.length_append] at this
    have h4 : ("http".toList).length = 4 := by decide
    omega
  have hspos : 0 < s.length := List.length_pos.mpr hs
  have hppos : 0 < p.length := List.length_pos.mpr hp
  have hdrop : p = ("http".toList).drop s.length := by
    rw [ht, List.drop_left]
  have hcase : s.length = 1 ∨ s.length = 2 ∨ s.length = 3 := by omega
  rcases hcase with hc | hc | hc <;> rw [hdrop, hc]
  · left; rfl
  · left; rfl
  · right; rfl

/-- The nonempty prefixes of `http` of length at most 3 end with `h` or `t`. -/
theorem http_span_last {s p : PyStr} (hs : s ≠ []) (hp : p ≠ [])
    (ht : ("http".toList : PyStr) = s ++ p) : s.getLast? = some 'h' ∨ s.getLast? = some 't' := by
  have hlen : s.length + p.length = 4 := by
    have := congrArg List.length ht
    simp only [List.length_append] at this
    have h4 : ("http".toList).length = 4 := by decide
    omega
  have hspos : 0 < s.length := List.length_pos.mpr hs
  have hppos : 0 < p.length := List.length_pos.mpr hp
  have htake : s = ("http".toList).take s.length := by
    rw [ht, List.take_left]
  have hcase : s.length = 1 ∨ s.length = 2 ∨ s.length = 3 := by omega
  rcases hcase with hc | hc | hc <;> rw [htake, hc]
  · left; rfl
  · right; rfl
  · right; rfl

theorem containsHttp_append_last {l₁ l₂ : PyStr}
    (h1 : containsHttpB l₁ = false) (h2 : containsHttpB l₂ = false)
    (hbar : ∀ c, l₁.getLast? = some c → c ≠ 'h' ∧ c ≠ 't') :
    containsHttpB (l₁ ++ l₂) = false := by
  rw [containsHttpB_false_iff] at h1 h2 ⊢
  intro hinf
  rcases infix_append_split hinf with h | h | ⟨s, p, hs, hp, ht, hsuf, _⟩
  · exact h1 h
  · exact h2 h
  · have hlast : l₁.getLast? = s.getLast? := by
      obtain ⟨r, hr⟩ := hsuf
      rw [← hr, List.getLast?_append]
      cases hq : s.getLast? with
      | none =>
        exfalso
        apply hs
        by_contra hne
        have := List.getLast?_isSome.mpr hne
        rw [hq] at this
        cases this
      | some c => simp [hq]
    rcases http_span_last hs hp ht with hc | hc
    · exact (hbar 'h' (by rw [hlast, hc])).1 rfl
    · exact (hbar 't' (by rw [hlast, hc])).2 rfl

theorem containsHttp_append_head {l₁ l₂ : PyStr}
    (h1 : containsHttpB l₁ = false) (h2 : containsHttpB l₂ = false)
    (hbar : ∀ c, l₂.head? = some c → c ≠ 't' ∧ c ≠ 'p') :
    containsHttpB (l₁ ++ l₂) = false := by
  rw [containsHttpB_false_iff] at h1 h2 ⊢
  intro hinf
  rcases infix_append_split hinf with h | h | ⟨s, p, hs, hp, ht, _, hpre⟩
  · exact h1 h
  · exact h2 h
  · have hhead : l₂.head? = p.head? := by
      obtain ⟨r, hr⟩ := hpre
      rw [← hr, List.head?_append]
      cases hq : p.head? with
      | none =>
        exfalso
        apply hp
        cases p with
        | nil => rfl
        | cons d q => cases hq
      | some c => simp [hq]
    rcases http_span_head hs hp ht with hc | hc
    · exact (hbar 't' (by rw [hhead, hc])).1 rfl
    · exact (hbar 'p' (by rw [hhead, hc])).2 rfl

/-! ### The pipe-escaping map does not create or destroy `http` -/

theorem escPipe_char_eq {x y : Char} (hy : y ≠ fullwidthBar)
    (h : (if x = '|' then fullwidthBar else x) = y) : x = y := by
  split at h
  · exact absurd h.symm hy
  · exact h

theorem escPipe_http_iff {l : PyStr} :
    ("http".toList <+: escPipe l) ↔ ("http".toList <+: l) := by
  constructor
  · intro h
    obtain ⟨t, ht⟩ := h
    rcases l with _ | ⟨a, _ | ⟨b, _ | ⟨c, _ | ⟨d, rest⟩⟩⟩⟩
    · have := congrArg List.length ht
      simp [escPipe] at this
    · have := congrArg List.length ht
      simp [escPipe] at this
    · have := congrArg List.length ht
      simp [escPipe] at this
    · have := congrArg List.length ht
      simp [escPipe] at this
    · have ht' : 'h' :: 't' :: 't' :: 'p' :: t =
          (if a = '|' then fullwidthBar else a) :: (if b = '|' then fullwidthBar else b) ::
          (if c = '|' then fullwidthBar else c) :: (if d = '|' then fullwidthBar else d) ::
          escPipe rest := ht
      simp only [List.cons.injEq] at ht'
      obtain ⟨ha, hb, hc, hd, _⟩ := ht'
      have ha' : a = 'h' := escPipe_char_eq (by decide) ha.symm
      have hb' : b = 't' := escPipe_char_eq (by decide) hb.symm
      have hc' : c = 't' := escPipe_char_eq (by decide) hc.symm
      have hd' : d = 'p' := escPipe_char_eq (by decide) hd.symm
      subst ha' hb' hc' hd'
      exact ⟨rest, rfl⟩
  · rintro ⟨t, ht⟩
    refine ⟨escPipe t, ?_⟩
    rw [← ht]
    rfl

theorem containsHttpB_escPipe (l : PyStr) : containsHttpB (escPipe l) = containsHttpB l := by
  induction l with
  | nil => rfl
  | cons c rest ih =>
    have hesc : escPipe (c :: rest) =
        (if c = '|' then fullwidthBar else c) :: escPipe rest := rfl
    rw [hesc]
    simp only [containsHttpB]
    rw [ih]
    congr 1
    rw [Bool.eq_iff_iff, List.isPrefixOf_iff_prefix, List.isPrefixOf_iff_prefix]
    constructor
    · intro hp
      exact escPipe_http_iff.mp hp
    · intro hp
      exact escPipe_http_iff.mpr hp

/-! ### Digits contain no `h` -/

theorem digitChar_ne_h (n : Nat) : digitChar n ≠ 'h' := by
  unfold digitChar
  repeat' split
  all_goals decide

theorem natDigitsF_ne_h {f n : Nat} : ∀ c ∈ natDigitsF f n, c ≠ 'h' := by
  induction f generalizing n with
  | zero => simp [natDigitsF]
  | succ f ih =>
    simp only [natDigitsF]
    split
    · intro c hc
      rw [List.mem_singleton] at hc
      rw [hc]
      exact digitChar_ne_h n
    · intro c hc
      rcases List.mem_append.mp hc with h | h
      · exact ih c h
      · rw [List.mem_singleton] at h
        rw [h]
        exact digitChar_ne_h _

theorem yearStr_ne_h {y : Option Int} : ∀ c ∈ yearStr y, c ≠ 'h' := by
  cases y with
  | none => simp [yearStr]
  | some i =>
    simp only [yearStr]
    split
    · simp
    · unfold pyIntStr
      split
      · intro c hc
        rcases List.mem_cons.mp hc with rfl | h
        · decide
        · exact natDigitsF_ne_h c h
      · intro c hc
        exact natDigitsF_ne_h c hc

theorem noHttp_yearStr (y : Option Int) : containsHttpB (yearStr y) = false :=
  containsHttp_of_no_h yearStr_ne_h
/-! ### Well-shaped URLs and the matches they produce when rendered -/

theorem cleanShapeB_spec {u : PyStr} (h : cleanShapeB u = true) :
    ∃ pre tail, (pre = "https://".toList ∨ pre = "http://".toList) ∧
      u = pre ++ tail ∧ tail ≠ [] ∧ (∀ c ∈ tail, stopChar c = false) ∧
      (∀ c, tail.getLast? = some c → trailPunct c = false) := by
  unfold cleanShapeB at h
  cases hms : matchScheme u with
  | none => rw [hms] at h; cases h
  | some p =>
    obtain ⟨pre, tail⟩ := p
    rw [hms] at h
    obtain ⟨hu, hpre⟩ := matchScheme_eq_append hms
    simp only [Bool.and_eq_true] at h
    obtain ⟨⟨hne, hall⟩, hlast⟩ := h
    refine ⟨pre, tail, hpre, hu, ?_, ?_, ?_⟩
    · intro hnil
      rw [hnil] at hne
      cases hne
    · intro c hc
      have := List.all_eq_true.mp hall c hc
      simpa using this
    · intro c hc
      rw [hc] at hlast
      have h2 : (!trailPunct c) = true := hlast
      simpa using h2

theorem matchScheme_append {pre rest : PyStr}
    (hpre : pre = "https://".toList ∨ pre = "http://".toList) :
    matchScheme (pre ++ rest) = some (pre, rest) := by
  rcases hpre with rfl | rfl
  · have hp : List.isPrefixOf "https://".toList ("https://".toList ++ rest) = true :=
      List.isPrefixOf_iff_prefix.mpr ⟨rest, rfl⟩
    unfold matchScheme
    rw [if_pos hp]
    have hd : ("https://".toList ++ rest).drop 8 = rest := by
      have h8 : ("https://".toList).length = 8 := by decide
      rw [← h8, List.drop_left]
    rw [hd]
  · have hnp : List.isPrefixOf "https://".toList ("http://".toList ++ rest) = false := by
      rw [Bool.eq_false_iff]
      intro hp
      rw [List.isPrefixOf_iff_prefix] at hp
      obtain ⟨t, ht⟩ := hp
      have ht' : 'h' :: 't' :: 't' :: 'p' :: 's' :: ':' :: '/' :: '/' :: t =
          'h' :: 't' :: 't' :: 'p' :: ':' :: '/' :: '/' :: rest := ht
      simp at ht'
    have hp : List.isPrefixOf "http://".toList ("http://".toList ++ rest) = true :=
      List.isPrefixOf_iff_prefix.mpr ⟨rest, rfl⟩
    unfold matchScheme
    rw [if_neg (by rw [hnp]; exact Bool.false_ne_true), if_pos hp]
    have hd : ("http://".toList ++ rest).drop 7 = rest := by
      have h7 : ("http://".toList).length = 7 := by decide
      rw [← h7, List.drop_left]
    rw [hd]

theorem takeWhile_append_stop {p : Char → Bool} {a : PyStr} (ha : ∀ c ∈ a, p c = true)
    {d : Char} (hd : p d = false) (b : PyStr) :
    (a ++ d :: b).takeWhile p = a := by
  rw [List.takeWhile_append]
  have hself : a.takeWhile p = a := List.takeWhile_eq_self_iff.mpr ha
  rw [if_pos (by rw [hself]),
    List.takeWhile_cons_of_neg (by rw [hd]; exact Bool.false_ne_true),
    List.append_nil]

theorem tryMatch1_eq_of_matchScheme {l pre rest : PyStr}
    (h : matchScheme l = some (pre, rest)) :
    tryMatch1 l = if (rest.takeWhile (fun c => !stopChar c)).isEmpty then none
      else some (pre ++ rest.takeWhile (fun c => !stopChar c),
                 rest.drop (rest.takeWhile (fun c => !stopChar c)).length) := by
  unfold tryMatch1
  rw [h]

theorem tryMatch2_eq_of_matchScheme {l pre rest2 : PyStr}
    (h : matchScheme l = some (pre, rest2)) :
    tryMatch2 ('(' :: l) =
      (if (rest2.takeWhile (fun d => d != ')')).isEmpty then none
       else match rest2.drop (rest2.takeWhile (fun d => d != ')')).length with
         | ')' :: rest3 => some (pre ++ rest2.takeWhile (fun d => d != ')'), rest3)
         | _ => none) := by
  simp only [tryMatch2]
  rw [if_pos trivial, h]

/-- The bare-URL regex, run right at a well-shaped URL followed by `)`,
matches exactly the URL. -/
theorem tryMatch1_at_url {u rest : PyStr} (h : cleanShapeB u = true) :
    tryMatch1 (u ++ ')' :: rest) = some (u, ')' :: rest) := by
  obtain ⟨pre, tail, hpre, hu, hne, hstop, _⟩ := cleanShapeB_spec h
  rw [hu, List.append_assoc]
  rw [tryMatch1_eq_of_matchScheme (matchScheme_append hpre)]
  have htw : (tail ++ ')' :: rest).takeWhile (fun c => !stopChar c) = tail := by
    refine takeWhile_append_stop ?_ (by decide) rest
    intro c hc
    rw [hstop c hc]
    rfl
  rw [htw]
  rw [if_neg (by rw [List.isEmpty_eq_true]; exact hne)]
  rw [List.drop_left]

/-- The markdown-link regex, run right at `(` + well-shaped URL + `)`,
captures exactly the URL. -/
theorem tryMatch2_at_url {u rest : PyStr} (h : cleanShapeB u = true) :
    tryMatch2 ('(' :: (u ++ ')' :: rest)) = some (u, rest) := by
  obtain ⟨pre, tail, hpre, hu, hne, hstop, _⟩ := cleanShapeB_spec h
  rw [hu, List.append_assoc]
  rw [tryMatch2_eq_of_matchScheme (matchScheme_append hpre)]
  have htw : (tail ++ ')' :: rest).takeWhile (fun d => d != ')') = tail := by
    refine takeWhile_append_stop ?_ (by decide) rest
    intro c hc
    have hs := hstop c hc
    have hc' : c ≠ ')' := by
      intro hcc
      rw [hcc] at hs
      cases hs
    simpa using hc'
  rw [htw]
  rw [if_neg (by rw [List.isEmpty_eq_true]; exact hne)]
  rw [List.drop_left]
  rfl

/-! ### `http`-freeness of the fixed row scaffolding -/

theorem headBarrier_of {x : PyStr} {ch : Char} (hx : x.head? = some ch)
    (h1 : ch ≠ 't') (h2 : ch ≠ 'p') : ∀ c, x.head? = some c → c ≠ 't' ∧ c ≠ 'p' := by
  intro c hc
  rw [hx] at hc
  injection hc with h
  rw [← h]
  exact ⟨h1, h2⟩

theorem lastBarrier_of {x : PyStr} {ch : Char} (hx : x.getLast? = some ch)
    (h1 : ch ≠ 'h') (h2 : ch ≠ 't') : ∀ c, x.getLast? = some c → c ≠ 'h' ∧ c ≠ 't' := by
  intro c hc
  rw [hx] at hc
  injection hc with h
  rw [← h]
  exact ⟨h1, h2⟩

/-- Gluing a field in front of a ` | `-separated remainder keeps the text
`http`-free. -/
theorem noHttp_field_sep {f x : PyStr} (hf : containsHttpB f = false)
    (hx : containsHttpB x = false) : containsHttpB (f ++ (sepMid ++ x)) = false := by
  have hsx : containsHttpB (sepMid ++ x) = false :=
    containsHttp_append_last (by decide) hx
      (lastBarrier_of ((by decide : sepMid.getLast? = some ' ')) (by decide) (by decide))
  have hh : (sepMid ++ x).head? = some ' ' := by
    rw [List.head?_append]
    rfl
  exact containsHttp_append_head hf hsx (headBarrier_of hh (by decide) (by decide))

theorem rowPreA_head (r : MRow) : (rowPreA r).head? = some '|' := rfl

theorem rowPreA_getLast (r : MRow) : (rowPreA r).getLast? = some ']' := by
  unfold rowPreA
  repeat rw [List.getLast?_append]
  rfl

theorem noHttp_rowPreA {r : MRow}
    (ht : containsHttpB r.title = false) (hty : containsHttpB r.type = false)
    (hac : containsHttpB r.access = false) (hw : containsHttpB r.why = false)
    (hu : containsHttpB r.use = false) :
    containsHttpB (rowPreA r) = false := by
  have hlink : (" | [Link]".toList : PyStr) = sepMid ++ "[Link]".toList := by decide
  have c1 : containsHttpB (r.use ++ " | [Link]".toList) = false := by
    rw [hlink]
    exact noHttp_field_sep hu (by decide)
  have c2 : containsHttpB (r.why ++ (sepMid ++ (r.use ++ " | [Link]".toList))) = false :=
    noHttp_field_sep hw c1
  have c2e : containsHttpB (escPipe r.why ++ (sepMid ++ (r.use ++ " | [Link]".toList))) =
      false := by
    have he : containsHttpB (escPipe r.why) = false := by
      rw [containsHttpB_escPipe]
      exact hw
    have hsx : containsHttpB (sepMid ++ (r.use ++ " | [Link]".toList)) = false :=
      containsHttp_append_last (by decide) c1
        (lastBarrier_of ((by decide : sepMid.getLast? = some ' ')) (by decide) (by decide))
    have hh : (sepMid ++ (r.use ++ " | [Link]".toList)).head? = some ' ' := by
      rw [List.head?_append]
      rfl
    exact containsHttp_append_head he hsx (headBarrier_of hh (by decide) (by decide))
  have c3 : containsHttpB (r.access ++ (sepMid ++
      (escPipe r.why ++ (sepMid ++ (r.use ++ " | [Link]".toList))))) = false :=
    noHttp_field_sep hac c2e
  have c4 : containsHttpB (yearStr r.year ++ (sepMid ++ (r.access ++ (sepMid ++
      (escPipe r.why ++ (sepMid ++ (r.use ++ " | [Link]".toList))))))) = false :=
    noHttp_field_sep (noHttp_yearStr r.year) c3
  have c5 : containsHttpB (r.type ++ (sepMid ++ (yearStr r.year ++ (sepMid ++
      (r.access ++ (sepMid ++ (escPipe r.why ++ (sepMid ++
      (r.use ++ " | [Link]".toList))))))))) = false :=
    noHttp_field_sep hty c4
  have c6 : containsHttpB (escPipe r.title ++ (sepMid ++ (r.type ++ (sepMid ++
      (yearStr r.year ++ (sepMid ++ (r.access ++ (sepMid ++ (escPipe r.why ++ (sepMid ++
      (r.use ++ " | [Link]".toList))))))))))) = false := by
    have he : containsHttpB (escPipe r.title) = false := by
      rw [containsHttpB_escPipe]
      exact ht
    have hsx : containsHttpB (sepMid ++ (r.type ++ (sepMid ++ (yearStr r.year ++
        (sepMid ++ (r.access ++ (sepMid ++ (escPipe r.why ++ (sepMid ++
        (r.use ++ " | [Link]".toList)))))))))) = false :=
      containsHttp_append_last (by decide) c5
        (lastBarrier_of ((by decide : sepMid.getLast? = some ' ')) (by decide) (by decide))
    have hh : (sepMid ++ (r.type ++ (sepMid ++ (yearStr r.year ++ (sepMid ++
        (r.access ++ (sepMid ++ (escPipe r.why ++ (sepMid ++
        (r.use ++ " | [Link]".toList)))))))))).head? = some ' ' := by
      rw [List.head?_append]
      rfl
    exact containsHttp_append_head he hsx (headBarrier_of hh (by decide) (by decide))
  have c7 : containsHttpB ("| ".toList ++ (escPipe r.title ++ (sepMid ++ (r.type ++
      (sepMid ++ (yearStr r.year ++ (sepMid ++ (r.access ++ (sepMid ++
      (escPipe r.why ++ (sepMid ++ (r.use ++ " | [Link]".toList)))))))))))) = false :=
    containsHttp_append_last (by decide) c6
      (lastBarrier_of ((by decide : ("| ".toList : PyStr).getLast? = some ' ')) (by decide)
        (by decide))
  have hshape : rowPreA r = "| ".toList ++ (escPipe r.title ++ (sepMid ++ (r.type ++
      (sepMid ++ (yearStr r.year ++ (sepMid ++ (r.access ++ (sepMid ++
      (escPipe r.why ++ (sepMid ++ (r.use ++ " | [Link]".toList))))))))))) := by
    unfold rowPreA
    simp [List.append_assoc]
  rw [hshape]
  exact c7
/-! ### Scanning a rendered table -/

theorem wfRowB_spec {r : MRow} (h : wfRowB r = true) :
    (∃ u, r.url = some u ∧ cleanShapeB u = true) ∧
      containsHttpB r.title = false ∧ containsHttpB r.type = false ∧
      containsHttpB r.access = false ∧ containsHttpB r.why = false ∧
      containsHttpB r.use = false := by
  unfold wfRowB at h
  simp only [Bool.and_eq_true, Bool.not_eq_true'] at h
  obtain ⟨⟨⟨⟨⟨hu, ht⟩, hty⟩, hac⟩, hw⟩, hus⟩ := h
  refine ⟨?_, ht, hty, hac, hw, hus⟩
  cases hurl : r.url with
  | none => rw [hurl] at hu; simp at hu
  | some u => rw [hurl] at hu; exact ⟨u, rfl, hu⟩

theorem noHttp_k_rowPreA {k : PyStr} (hk : containsHttpB k = false) {r : MRow}
    (hr : containsHttpB (rowPreA r) = false) :
    containsHttpB (k ++ rowPreA r) = false :=
  containsHttp_append_head hk hr (headBarrier_of (rowPreA_head r) (by decide) (by decide))

theorem url_take3 {u : PyStr} (h : cleanShapeB u = true) (x : PyStr) :
    (u ++ x).take 3 = ['h', 't', 't'] := by
  obtain ⟨pre, tail, hpre, hu, _, _, _⟩ := cleanShapeB_spec h
  rcases hpre with rfl | rfl <;> rw [hu, List.append_assoc] <;> rfl

theorem url_paren_take3 {u : PyStr} (h : cleanShapeB u = true) (x : PyStr) :
    ('(' :: (u ++ x)).take 3 = ['(', 'h', 't'] := by
  obtain ⟨pre, tail, hpre, hu, _, _, _⟩ := cleanShapeB_spec h
  rcases hpre with rfl | rfl <;> rw [hu, List.append_assoc] <;> rfl

theorem noHttp_L1 {k : PyStr} (hk : containsHttpB k = false) {r : MRow}
    (hpr : containsHttpB (rowPreA r) = false) :
    containsHttpB ((k ++ (rowPreA r ++ ['('])) ++ ['h', 't', 't']) = false := by
  have h1 : containsHttpB (rowPreA r ++ ['(']) = false :=
    containsHttp_append_last hpr (containsHttp_short (by decide))
      (lastBarrier_of (rowPreA_getLast r) (by decide) (by decide))
  have hh : (rowPreA r ++ ['(']).head? = some '|' := by
    rw [List.head?_append, rowPreA_head]
    rfl
  have h2 : containsHttpB (k ++ (rowPreA r ++ ['('])) = false :=
    containsHttp_append_head hk h1 (headBarrier_of hh (by decide) (by decide))
  have hlast : (k ++ (rowPreA r ++ ['('])).getLast? = some '(' := by
    rw [List.getLast?_append, List.getLast?_append]
    rfl
  exact containsHttp_append_last h2 (containsHttp_short (by decide))
    (lastBarrier_of hlast (by decide) (by decide))

theorem noHttp_L2 {k : PyStr} (hk : containsHttpB k = false) {r : MRow}
    (hpr : containsHttpB (rowPreA r) = false) :
    containsHttpB ((k ++ rowPreA r) ++ ['(', 'h', 't']) = false := by
  have h2 : containsHttpB (k ++ rowPreA r) = false := noHttp_k_rowPreA hk hpr
  have hlast : (k ++ rowPreA r).getLast? = some ']' := by
    rw [List.getLast?_append, rowPreA_getLast]
    rfl
  exact containsHttp_append_last h2 (containsHttp_short (by decide))
    (lastBarrier_of hlast (by decide) (by decide))

theorem not_http_nil : ¬ ("http".toList <+: ([] : PyStr)) := by
  rintro ⟨t, ht⟩
  simp at ht

/-- The bare-URL scan of `k ++ bodyText rows` returns exactly the url cells,
in row order, provided `k` and all fields are `http`-free and the urls are
well shaped. -/
theorem findall1_bodyText : ∀ (rows : List MRow), (∀ r ∈ rows, wfRowB r = true) →
    ∀ k : PyStr, containsHttpB k = false →
      findall1 (k ++ bodyText rows) = rows.map urlOf := by
  intro rows
  induction rows with
  | nil =>
    intro _ k hk
    simp only [bodyText, List.append_nil, List.map_nil]
    have h0 : findall1 (k ++ ([] : PyStr)) = findall1 ([] : PyStr) :=
      findall1_skip_seg (by simpa using hk)
    simpa using h0
  | cons r rest ih =>
    intro hwf k hk
    obtain ⟨⟨u, hurl, hshape⟩, ht, hty, hac, hw, hus⟩ :=
      wfRowB_spec (hwf r (List.mem_cons_self r rest))
    have hurlOf : urlOf r = u := by unfold urlOf; rw [hurl]
    have hpr : containsHttpB (rowPreA r) = false := noHttp_rowPreA ht hty hac hw hus
    cases rest with
    | nil =>
      have hbody : bodyText [r] = rowPreA r ++ '(' :: (u ++ ')' :: " |".toList) := by
        simp only [bodyText, rowLine, hurlOf]
      rw [hbody]
      have hre : k ++ (rowPreA r ++ '(' :: (u ++ ')' :: " |".toList)) =
          (k ++ (rowPreA r ++ ['('])) ++ (u ++ ')' :: " |".toList) := by
        simp [List.append_assoc]
      rw [hre]
      have hskip : containsHttpB ((k ++ (rowPreA r ++ ['('])) ++
          (u ++ ')' :: " |".toList).take 3) = false := by
        rw [url_take3 hshape]
        exact noHttp_L1 hk hpr
      rw [findall1_skip_seg hskip]
      rw [findall1_match (tryMatch1_at_url hshape)]
      have hconc : findall1 (')' :: " |".toList) = [] := by decide
      rw [hconc]
      simp [hurlOf]
    | cons r2 rest2 =>
      have hbody : bodyText (r :: r2 :: rest2) =
          rowPreA r ++ '(' :: (u ++ ')' :: (" |".toList ++ '\n' :: bodyText (r2 :: rest2))) := by
        simp only [bodyText, rowLine, hurlOf, List.append_assoc, List.cons_append]
      rw [hbody]
      have hre : k ++ (rowPreA r ++ '(' ::
            (u ++ ')' :: (" |".toList ++ '\n' :: bodyText (r2 :: rest2)))) =
          (k ++ (rowPreA r ++ ['('])) ++
            (u ++ ')' :: (" |".toList ++ '\n' :: bodyText (r2 :: rest2))) := by
        simp [List.append_assoc]
      rw [hre]
      have hskip : containsHttpB ((k ++ (rowPreA r ++ ['('])) ++
          (u ++ ')' :: (" |".toList ++ '\n' :: bodyText (r2 :: rest2))).take 3) = false := by
        rw [url_take3 hshape]
        exact noHttp_L1 hk hpr
      rw [findall1_skip_seg hskip]
      rw [findall1_match (tryMatch1_at_url hshape)]
      have hre2 : (')' :: (" |".toList ++ '\n' :: bodyText (r2 :: rest2)) : PyStr) =
          ") |\n".toList ++ bodyText (r2 :: rest2) := rfl
      rw [hre2]
      rw [ih (fun x hx => hwf x (List.mem_cons_of_mem _ hx)) _ (by decide)]
      simp [hurlOf]

/-- The markdown-link scan of `k ++ bodyText rows` likewise returns exactly
the url cells in row order. -/
theorem findall2_bodyText : ∀ (rows : List MRow), (∀ r ∈ rows, wfRowB r = true) →
    ∀ k : PyStr, containsHttpB k = false →
      findall2 (k ++ bodyText rows) = rows.map urlOf := by
  intro rows
  induction rows with
  | nil =>
    intro _ k hk
    simp only [bodyText, List.append_nil, List.map_nil]
    have h0 : findall2 (k ++ ([] : PyStr)) = findall2 ([] : PyStr) :=
      findall2_skip_seg (by simpa using hk) not_http_nil
    simpa using h0
  | cons r rest ih =>
    intro hwf k hk
    obtain ⟨⟨u, hurl, hshape⟩, ht, hty, hac, hw, hus⟩ :=
      wfRowB_spec (hwf r (List.mem_cons_self r rest))
    have hurlOf : urlOf r = u := by unfold urlOf; rw [hurl]
    have hpr : containsHttpB (rowPreA r) = false := noHttp_rowPreA ht hty hac hw hus
    cases rest with
    | nil =>
      have hbody : bodyText [r] = rowPreA r ++ '(' :: (u ++ ')' :: " |".toList) := by
        simp only [bodyText, rowLine, hurlOf]
      rw [hbody]
      have hre : k ++ (rowPreA r ++ '(' :: (u ++ ')' :: " |".toList)) =
          (k ++ rowPreA r) ++ ('(' :: (u ++ ')' :: " |".toList)) := by
        simp [List.append_assoc]
      rw [hre]
      have hskip : containsHttpB ((k ++ rowPreA r) ++
          ('(' :: (u ++ ')' :: " |".toList)).take 3) = false := by
        rw [url_paren_take3 hshape]
        exact noHttp_L2 hk hpr
      rw [findall2_skip_seg hskip (not_http_of_head (by decide))]
      rw [findall2_match (tryMatch2_at_url hshape)]
      have hconc : findall2 (" |".toList) = [] := by decide
      rw [hconc]
      simp [hurlOf]
    | cons r2 rest2 =>
      have hbody : bodyText (r :: r2 :: rest2) =
          rowPreA r ++ '(' :: (u ++ ')' :: (" |".toList ++ '\n' :: bodyText (r2 :: rest2))) := by
        simp only [bodyText, rowLine, hurlOf, List.append_assoc, List.cons_append]
      rw [hbody]
      have hre : k ++ (rowPreA r ++ '(' ::
            (u ++ ')' :: (" |".toList ++ '\n' :: bodyText (r2 :: rest2)))) =
          (k ++ rowPreA r) ++
            ('(' :: (u ++ ')' :: (" |".toList ++ '\n' :: bodyText (r2 :: rest2)))) := by
        simp [List.append_assoc]
      rw [hre]
      have hskip : containsHttpB ((k ++ rowPreA r) ++
          ('(' :: (u ++ ')' :: (" |".toList ++ '\n' :: bodyText (r2 :: rest2)))).take 3) =
          false := by
        rw [url_paren_take3 hshape]
        exact noHttp_L2 hk hpr
      rw [findall2_skip_seg hskip (not_http_of_head (by decide))]
      rw [findall2_match (tryMatch2_at_url hshape)]
      have hre2 : ((" |".toList ++ '\n' :: bodyText (r2 :: rest2)) : PyStr) =
          " |\n".toList ++ bodyText (r2 :: rest2) := rfl
      rw [hre2]
      rw [ih (fun x hx => hwf x (List.mem_cons_of_mem _ hx)) _ (by decide)]
      simp [hurlOf]

theorem findall1_render {rows : List MRow} (hwf : ∀ r ∈ rows, wfRowB r = true)
    (hne : rows ≠ []) :
    findall1 (render_resource_table rows) = rows.map urlOf := by
  unfold render_resource_table
  rw [if_neg hne]
  exact findall1_bodyText rows hwf headerStr (by decide)

theorem findall2_render {rows : List MRow} (hwf : ∀ r ∈ rows, wfRowB r = true)
    (hne : rows ≠ []) :
    findall2 (render_resource_table rows) = rows.map urlOf := by
  unfold render_resource_table
  rw [if_neg hne]
  exact findall2_bodyText rows hwf headerStr (by decide)

theorem rawMatches_render {rows : List MRow} (hwf : ∀ r ∈ rows, wfRowB r = true)
    (hne : rows ≠ []) :
    rawMatches (render_resource_table rows) = rows.map urlOf ++ rows.map urlOf := by
  unfold rawMatches
  rw [findall1_render hwf hne, findall2_render hwf hne]
/-! ### The metadata sort: permutation, ordering, keys -/

theorem foldl_dictIdx_cases (u : PyStr) :
    ∀ (ps : List (Nat × PyStr)) (acc : Option Nat),
      ps.foldl (fun a p => if p.2 = u then some p.1 else a) acc = acc ∨
      ∃ p ∈ ps, p.2 = u ∧
        ps.foldl (fun a p => if p.2 = u then some p.1 else a) acc = some p.1 := by
  intro ps
  induction ps with
  | nil => intro acc; left; rfl
  | cons q qs ih =>
    intro acc
    simp only [List.foldl_cons]
    rcases ih (if q.2 = u then some q.1 else acc) with h | ⟨p, hp, hpu, hres⟩
    · by_cases hq : q.2 = u
      · right
        exact ⟨q, List.mem_cons_self q qs, hq, by rw [h, if_pos hq]⟩
      · left
        rw [h, if_neg hq]
    · right
      exact ⟨p, List.mem_cons_of_mem _ hp, hpu, hres⟩

theorem foldl_dictIdx_mem (u : PyStr) :
    ∀ (ps : List (Nat × PyStr)) (acc : Option Nat), (∃ p ∈ ps, p.2 = u) →
      ∃ p ∈ ps, p.2 = u ∧
        ps.foldl (fun a p => if p.2 = u then some p.1 else a) acc = some p.1 := by
  intro ps
  induction ps with
  | nil =>
    rintro acc ⟨p, hp, _⟩
    simp at hp
  | cons q qs ih =>
    rintro acc ⟨p, hp, hpu⟩
    simp only [List.foldl_cons]
    by_cases hqs : ∃ p2 ∈ qs, p2.2 = u
    · obtain ⟨p2, hp2, hp2u, hres⟩ := ih _ hqs
      exact ⟨p2, List.mem_cons_of_mem _ hp2, hp2u, hres⟩
    · have hpq : p = q := by
        rcases List.mem_cons.mp hp with h | h
        · exact h
        · exact absurd ⟨p, h, hpu⟩ hqs
      subst hpq
      rcases foldl_dictIdx_cases u qs (if p.2 = u then some p.1 else acc) with
        h | ⟨p2, hp2, hp2u, _⟩
      · exact ⟨p, List.mem_cons_self p qs, hpu, by rw [h, if_pos hpu]⟩
      · exact absurd ⟨p2, hp2, hp2u⟩ hqs

theorem dictIdx_mem_lt {l : List PyStr} {u : PyStr} (h : u ∈ l) :
    ∃ i, dictIdx l u = some i ∧ i < l.length := by
  have hmap : u ∈ l.enum.map Prod.snd := by
    rw [List.enum_map_snd]
    exact h
  obtain ⟨p, hp, hpu⟩ := List.mem_map.mp hmap
  obtain ⟨p2, hp2, hp2u, hres⟩ := foldl_dictIdx_mem u l.enum none ⟨p, hp, hpu⟩
  exact ⟨p2.1, hres, List.fst_lt_of_mem_enum hp2⟩

theorem keyOf_lt_of_mem {verified : List PyStr} {r : MRow} {u : PyStr}
    (hu : r.url = some u) (hmem : u ∈ verified) :
    keyOf verified r < verified.length := by
  have hk : keyOf verified r = (dictIdx verified u).getD verified.length := by
    unfold keyOf
    rw [hu]
  rw [hk]
  obtain ⟨i, hi, hilt⟩ := dictIdx_mem_lt hmem
  rw [hi]
  simpa using hilt

theorem filter_lt_succ_perm (key : MRow → Nat) (m : Nat) (data : List MRow) :
    (data.filter (fun r => decide (key r < m)) ++ data.filter (fun r => key r == m)).Perm
      (data.filter (fun r => decide (key r < m + 1))) := by
  induction data with
  | nil => simp
  | cons d ds ih =>
    by_cases h1 : key d < m
    · simp only [List.filter_cons]
      rw [if_pos (by simpa using h1), if_neg (by simp; omega), if_pos (by simp; omega)]
      rw [List.cons_append]
      exact ih.cons d
    · by_cases h2 : key d = m
      · simp only [List.filter_cons]
        rw [if_neg (by simpa using h1), if_pos (by simpa using h2), if_pos (by simp; omega)]
        exact List.perm_middle.trans (ih.cons d)
      · simp only [List.filter_cons]
        rw [if_neg (by simpa using h1), if_neg (by simpa using h2),
          if_neg (by simp; omega)]
        exact ih

theorem flatMap_range_filter_perm (key : MRow → Nat) (data : List MRow) :
    ∀ m : Nat, ((List.range m).flatMap (fun i => data.filter (fun r => key r == i))).Perm
      (data.filter (fun r => decide (key r < m))) := by
  intro m
  induction m with
  | zero =>
    simp only [List.range_zero, List.flatMap_nil]
    have : data.filter (fun r => decide (key r < 0)) = [] := by
      rw [List.filter_eq_nil_iff]
      intro a _
      simp
    rw [this]
  | succ m ih =>
    rw [List.range_succ, List.flatMap_append]
    have h1 : (List.flatMap [m] fun i => data.filter (fun r => key r == i)) =
        data.filter (fun r => key r == m) := by
      simp
    rw [h1]
    exact (ih.append_right _).trans (filter_lt_succ_perm key m data)

theorem flatMap_range_filter_pairwise (key : MRow → Nat) (data : List MRow) :
    ∀ m : Nat,
      ((List.range m).flatMap (fun i => data.filter (fun r => key r == i))).Pairwise
        (fun r1 r2 => key r1 ≤ key r2) ∧
      ∀ x ∈ (List.range m).flatMap (fun i => data.filter (fun r => key r == i)),
        key x < m := by
  intro m
  induction m with
  | zero => simp
  | succ m ih =>
    obtain ⟨hpw, hbound⟩ := ih
    rw [List.range_succ, List.flatMap_append]
    have h1 : (List.flatMap [m] fun i => data.filter (fun r => key r == i)) =
        data.filter (fun r => key r == m) := by
      simp
    rw [h1]
    have hgrp : ∀ x ∈ data.filter (fun r => key r == m), key x = m := by
      intro x hx
      have := (List.mem_filter.mp hx).2
      exact beq_iff_eq.mp this
    constructor
    · rw [List.pairwise_append]
      refine ⟨hpw, ?_, ?_⟩
      · refine List.pairwise_of_forall_mem_list ?_
        intro a ha b hb
        rw [hgrp a ha, hgrp b hb]
      · intro a ha b hb
        have h2 := hbound a ha
        have h3 := hgrp b hb
        omega
    · intro x hx
      rcases List.mem_append.mp hx with h | h
      · have := hbound x h
        omega
      · have := hgrp x h
        omega

theorem mem_filterMap_rowOk {verified : List PyStr} {items : List PyItem} {r : MRow}
    (hr : r ∈ items.filterMap (rowOk verified)) :
    ∃ u, r.url = some u ∧ u ∈ verified := by
  rw [List.mem_filterMap] at hr
  obtain ⟨it, _, hit⟩ := hr
  cases it with
  | nonDict =>
    have hit2 : (none : Option MRow) = some r := hit
    cases hit2
  | dict r2 =>
    have hit2 : (match r2.url with
        | some u => if u ∈ verified then some r2 else none
        | none => none) = some r := hit
    cases hu : r2.url with
    | none =>
      rw [hu] at hit2
      have hit3 : (none : Option MRow) = some r := hit2
      cases hit3
    | some u =>
      rw [hu] at hit2
      have hit3 : (if u ∈ verified then some r2 else none) = some r := hit2
      split at hit3
      · rename_i hmem
        injection hit3 with h
        subst h
        exact ⟨u, hu, hmem⟩
      · cases hit3

theorem build_metadata_perm (verified : List PyStr) (items : List PyItem) :
    (build_metadata_json verified (.arr items)).Perm (items.filterMap (rowOk verified)) := by
  by_cases hne : verified = []
  · subst hne
    unfold build_metadata_json
    rw [if_pos rfl]
    have h0 : items.filterMap (rowOk []) = [] := by
      rw [List.filterMap_eq_nil_iff]
      intro it _
      cases it with
      | nonDict => rfl
      | dict r2 =>
        show (match r2.url with
          | some u => if u ∈ ([] : List PyStr) then some r2 else none
          | none => none) = none
        cases hu : r2.url with
        | none => rfl
        | some u => simp
    rw [h0]
  · unfold build_metadata_json
    rw [if_neg hne]
    unfold pySortByKey
    refine (flatMap_range_filter_perm (keyOf verified)
      (items.filterMap (rowOk verified)) (verified.length + 1)).trans ?_
    have hall : (items.filterMap (rowOk verified)).filter
        (fun r => decide (keyOf verified r < verified.length + 1)) =
        items.filterMap (rowOk verified) := by
      rw [List.filter_eq_self]
      intro r hr
      obtain ⟨u, hu, hmem⟩ := mem_filterMap_rowOk hr
      have := keyOf_lt_of_mem hu hmem
      simp
      omega
    rw [hall]

theorem build_metadata_pairwise (verified : List PyStr) (items : List PyItem) :
    (build_metadata_json verified (.arr items)).Pairwise
      (fun r1 r2 => keyOf verified r1 ≤ keyOf verified r2) := by
  by_cases hne : verified = []
  · unfold build_metadata_json
    rw [if_pos hne]
    exact List.Pairwise.nil
  · unfold build_metadata_json
    rw [if_neg hne]
    show (pySortByKey verified (items.filterMap (rowOk verified))).Pairwise
      (fun r1 r2 => keyOf verified r1 ≤ keyOf verified r2)
    unfold pySortByKey
    exact (flatMap_range_filter_pairwise (keyOf verified)
      (items.filterMap (rowOk verified)) (verified.length + 1)).1

theorem build_metadata_url_mem {verified : List PyStr} {items : List PyItem} {r : MRow}
    (hr : r ∈ build_metadata_json verified (.arr items)) :
    ∃ u, r.url = some u ∧ u ∈ verified :=
  mem_filterMap_rowOk ((build_metadata_perm verified items).mem_iff.mp hr)

theorem filterMap_rowOk_countP (verified : List PyStr) (items : List PyItem)
    {u : PyStr} (hmem : u ∈ verified) :
    (items.filterMap (rowOk verified)).countP (fun r => r.url == some u) =
      items.countP (fun it => match it with
        | .dict r => r.url == some u
        | .nonDict => false) := by
  induction items with
  | nil => rfl
  | cons it its ih =>
    rw [List.filterMap_cons, List.countP_cons]
    cases it with
    | nonDict =>
      have h0 : rowOk verified PyItem.nonDict = none := rfl
      rw [h0]
      simpa using ih
    | dict r2 =>
      cases hu : r2.url with
      | none =>
        have h0 : rowOk verified (PyItem.dict r2) = none := by
          show (match r2.url with
            | some v => if v ∈ verified then some r2 else none
            | none => none) = none
          rw [hu]
        rw [h0]
        have h1 : (match PyItem.dict r2 with
            | PyItem.dict r => r.url == some u
            | PyItem.nonDict => false) = false := by
          show (r2.url == some u) = false
          rw [hu]
          rfl
        rw [h1]
        simpa using ih
      | some w =>
        by_cases hw : w = u
        · subst hw
          have h0 : rowOk verified (PyItem.dict r2) = some r2 := by
            show (match r2.url with
              | some v => if v ∈ verified then some r2 else none
              | none => none) = some r2
            rw [hu]
            show (if w ∈ verified then some r2 else none) = some r2
            rw [if_pos hmem]
          rw [h0, List.countP_cons]
          have h1 : (match PyItem.dict r2 with
              | PyItem.dict r => r.url == some w
              | PyItem.nonDict => false) = (r2.url == some w) := rfl
          rw [h1, ih]
        · have hfalse : (r2.url == some u) = false := by
            rw [hu]
            simp [hw]
          have h1 : (match PyItem.dict r2 with
              | PyItem.dict r => r.url == some u
              | PyItem.nonDict => false) = false := hfalse
          rw [h1]
          have h0 : rowOk verified (PyItem.dict r2) =
              (if w ∈ verified then some r2 else none) := by
            show (match r2.url with
              | some v => if v ∈ verified then some r2 else none
              | none => none) = (if w ∈ verified then some r2 else none)
            rw [hu]
          rw [h0]
          by_cases hwv : w ∈ verified
          · rw [if_pos hwv, List.countP_cons, hfalse]
            simpa using ih
          · rw [if_neg hwv]
            simpa using ih

/-! ### The retry loop: totality, call bound, immediate exit -/

theorem retryLoopF_total (gen : Nat → PyStr) (checkFn : PyStr → Bool × PyStr)
    (extractFn : PyStr → List PyStr) :
    ∀ (fuel : Nat) (good : List PyStr) (attempt : Nat) (ctx : PyStr)
      (tr : List (Nat × PyStr)),
      ∃ g a tr', retryLoopF (fun n => .ok (gen n)) checkFn extractFn fuel good attempt ctx tr =
        .ok (g, a, tr ++ tr') ∧ tr'.length ≤ fuel ∧ a ≤ attempt + fuel := by
  intro fuel
  induction fuel with
  | zero =>
    intro good attempt ctx tr
    exact ⟨good, attempt, [], by simp [retryLoopF], by simp, by omega⟩
  | succ fuel ih =>
    intro good attempt ctx tr
    by_cases hlen : good.length < 6
    · obtain ⟨g, a, tr', h1, h2, h3⟩ :=
        ih (mergeNew checkFn good (extractFn (gen (attempt + 1)))) (attempt + 1)
          (ctx ++ "\n\n".toList ++ gen (attempt + 1)) (tr ++ [(attempt + 1, gen (attempt + 1))])
      refine ⟨g, a, (attempt + 1, gen (attempt + 1)) :: tr', ?_, ?_, ?_⟩
      · simp only [retryLoopF]
        rw [if_pos hlen]
        rw [h1]
        simp
      · simp
        omega
      · omega
    · refine ⟨good, attempt, [], ?_, by simp, by omega⟩
      simp only [retryLoopF]
      rw [if_neg hlen]
      simp

theorem runRetryLoop_of_ge6 (gen : Nat → Except PyStr PyStr)
    (checkFn : PyStr → Bool × PyStr) (extractFn : PyStr → List PyStr)
    {good0 : List PyStr} (draft : PyStr) (h : 6 ≤ good0.length) :
    runRetryLoop gen checkFn extractFn good0 draft = .ok (good0, 0, []) := by
  unfold runRetryLoop MAX_RETRIES
  simp only [retryLoopF]
  rw [if_neg (by omega)]

theorem runRetryLoop_err1 (gen : Nat → Except PyStr PyStr)
    (checkFn : PyStr → Bool × PyStr) (extractFn : PyStr → List PyStr)
    {good : List PyStr} (ctx : PyStr) {e : PyStr}
    (hlen : good.length < 6) (hgen : gen 1 = .error e) :
    runRetryLoop gen checkFn extractFn good ctx = .error e := by
  unfold runRetryLoop MAX_RETRIES
  simp only [retryLoopF]
  rw [if_pos hlen]
  rw [show gen (0 + 1) = Except.error e from hgen]

theorem runRetryLoop_err2 (gen : Nat → Except PyStr PyStr)
    (checkFn : PyStr → Bool × PyStr) (extractFn : PyStr → List PyStr)
    {good : List PyStr} (ctx : PyStr) {c e : PyStr}
    (hlen : good.length < 6) (hgen1 : gen 1 = .ok c)
    (hlen2 : (mergeNew checkFn good (extractFn c)).length < 6)
    (hgen2 : gen 2 = .error e) :
    runRetryLoop gen checkFn extractFn good ctx = .error e := by
  unfold runRetryLoop MAX_RETRIES
  simp only [retryLoopF]
  rw [if_pos hlen]
  rw [show gen (0 + 1) = Except.ok c from hgen1]
  simp only [retryLoopF]
  rw [if_pos hlen2]
  rw [show gen (0 + 1 + 1) = Except.error e from hgen2]
/-! ### Last support lemmas for the claims -/

theorem check_url_status_no_esc {h : Nat} (hesc : ¬(h = 403 ∨ h = 405 ∨ 500 ≤ h))
    (gr : ProbeResult) : check_url (.status h) gr = verdictOf h := by
  show (if h = 403 ∨ h = 405 ∨ 500 ≤ h then
      (match gr with
       | ProbeResult.exn n => (false, errNote n)
       | ProbeResult.status c2 => verdictOf c2)
      else verdictOf h) = verdictOf h
  rw [if_neg hesc]

theorem check_url_status_esc {h : Nat} (hesc : h = 403 ∨ h = 405 ∨ 500 ≤ h) (g : Nat) :
    check_url (.status h) (.status g) = verdictOf g := by
  show (if h = 403 ∨ h = 405 ∨ 500 ≤ h then verdictOf g else verdictOf h) = verdictOf g
  rw [if_pos hesc]

theorem check_url_get_exn {h : Nat} (hesc : h = 403 ∨ h = 405 ∨ 500 ≤ h) (n : PyStr) :
    check_url (.status h) (.exn n) = (false, errNote n) := by
  show (if h = 403 ∨ h = 405 ∨ 500 ≤ h then (false, errNote n) else verdictOf h) =
    (false, errNote n)
  rw [if_pos hesc]

theorem verdictOf_2xx {s : Nat} (h1 : 200 ≤ s) (h2 : s < 300) :
    verdictOf s = (true, pyNatStr s) := by
  unfold verdictOf
  rw [if_pos ⟨h1, h2⟩]

theorem verdictOf_3xx {s : Nat} (h1 : 300 ≤ s) (h2 : s < 400) :
    verdictOf s = (true, pyNatStr s ++ " (redirect)".toList) := by
  unfold verdictOf
  rw [if_neg (by omega), if_pos ⟨h1, h2⟩]

theorem verdictOf_other {s : Nat} (h1 : ¬(200 ≤ s ∧ s < 300)) (h2 : ¬(300 ≤ s ∧ s < 400)) :
    verdictOf s = (false, pyNatStr s) := by
  unfold verdictOf
  rw [if_neg h1, if_neg h2]

theorem wsChar_false_of_stopChar {c : Char} (h : stopChar c = false) : wsChar c = false := by
  unfold stopChar at h
  unfold wsChar
  simp only [Bool.or_eq_false_iff] at h ⊢
  obtain ⟨⟨⟨⟨⟨⟨⟨⟨h1, h2⟩, h3⟩, h4⟩, h5⟩, h6⟩, _⟩, _⟩, _⟩ := h
  exact ⟨⟨⟨⟨⟨h1, h2⟩, h3⟩, h4⟩, h5⟩, h6⟩

theorem rstripBy_eq_self {p : Char → Bool} {l : PyStr}
    (h : ∀ c, l.getLast? = some c → p c = false) : rstripBy p l = l := by
  unfold rstripBy
  cases hl : l.reverse with
  | nil =>
    have : l = [] := by
      have := congrArg List.reverse hl
      simpa using this
    rw [this]
    rfl
  | cons c t =>
    have hc : l.getLast? = some c := by
      rw [← List.head?_reverse, hl]
      rfl
    rw [List.dropWhile_cons_of_neg (by rw [h c hc]; exact Bool.false_ne_true)]
    rw [← hl, List.reverse_reverse]

theorem cleanUrl_of_cleanShape {u : PyStr} (h : cleanShapeB u = true) : cleanUrl u = u := by
  obtain ⟨pre, tail, hpre, hu, hne, hstop, hlast⟩ := cleanShapeB_spec h
  obtain ⟨c0, hc0⟩ : ∃ c, tail.getLast? = some c := by
    cases hq : tail.getLast? with
    | none =>
      exfalso
      apply hne
      by_contra hne2
      have := List.getLast?_isSome.mpr hne2
      rw [hq] at this
      cases this
    | some c => exact ⟨c, rfl⟩
  have hcmem : c0 ∈ tail := List.mem_of_mem_getLast? hc0
  have hws0 := wsChar_false_of_stopChar (hstop c0 hcmem)
  have htp0 := hlast c0 hc0
  have hulast : u.getLast? = some c0 := by
    rw [hu, List.getLast?_append, hc0]
    rfl
  have h1 : u.dropWhile wsChar = u := by
    rcases hpre with rfl | rfl <;> rw [hu] <;> rfl
  have hinner : rstripBy wsChar u = u := rstripBy_eq_self (fun c hc => by
    rw [hulast] at hc
    injection hc with hh
    rw [← hh]
    exact hws0)
  have houter : rstripBy trailPunct u = u := rstripBy_eq_self (fun c hc => by
    rw [hulast] at hc
    injection hc with hh
    rw [← hh]
    exact htp0)
  unfold cleanUrl
  rw [h1, hinner, houter]

theorem schemeOkB_of_cleanShape {u : PyStr} (h : cleanShapeB u = true) :
    schemeOkB u = true := by
  obtain ⟨pre, tail, hpre, hu, _, _, _⟩ := cleanShapeB_spec h
  apply schemeOkB_of_scheme
  rcases hpre with rfl | rfl
  · exact Or.inl ⟨tail, hu.symm⟩
  · exact Or.inr ⟨tail, hu.symm⟩

/-! ### The claims -/

/-- C1: the specification claims that `extract_urls` presents accepted URLs
in first-seen order of their occurrence in the text.  The code iterates the
Python SET `raw_urls`, whose iteration order is hash-dependent, so an
admissible iteration order of the set built from
`"http://a.com http://b.com"` (whose first-seen order is
`[http://a.com, http://b.com]`, as the findall result shows) makes the
function return `[http://b.com, http://a.com]` instead.  Evaluation of the
model at this failing input. -/
theorem c1_extractor_order_bug :
    validEnum textAB [urlB, urlA] ∧
    findall1 textAB = [urlA, urlB] ∧
    extract_urls [urlB, urlA] 50 = [urlB, urlA] ∧
    extract_urls [urlB, urlA] 50 ≠ [urlA, urlB] := by
  refine ⟨⟨by decide, by decide, by decide⟩, by decide, by decide, by decide⟩

/-- C2 (counterexample): with a generation oracle that raises on the first
repair retry, the retry loop propagates the error — the Python run block has
no handler around `call_model` in the retry loop — so the run aborts rather
than continuing with zero new verified URLs. -/
theorem c2_retry_failure_aborts_counterexample :
    runRetryLoop genFailW chkW extW [] [] = .error "APIConnectionError".toList := rfl

/-- C2 (amended): if the generation call of a reached repair retry fails,
the exception propagates out of the retry loop and the whole run is aborted;
the loop performs no per-attempt error handling and produces no partial
result. -/
theorem c2_retry_failure_propagates (gen : Nat → Except PyStr PyStr)
    (checkFn : PyStr → Bool × PyStr) (extractFn : PyStr → List PyStr)
    (good : List PyStr) (ctx : PyStr) (e : PyStr) :
    (good.length < 6 → gen 1 = .error e →
      runRetryLoop gen checkFn extractFn good ctx = .error e) ∧
    (∀ c, good.length < 6 → gen 1 = .ok c →
      (mergeNew checkFn good (extractFn c)).length < 6 → gen 2 = .error e →
      runRetryLoop gen checkFn extractFn good ctx = .error e) :=
  ⟨fun h1 h2 => runRetryLoop_err1 gen checkFn extractFn ctx h1 h2,
   fun _ h1 h2 h3 h4 => runRetryLoop_err2 gen checkFn extractFn ctx h1 h2 h3 h4⟩

/-- C2 (amended), witness: a generator succeeding on retry 1 and raising on
retry 2 aborts the run with the retry-2 error. -/
theorem c2_retry_failure_propagates_witness :
    runRetryLoop genFail2W chkW extW [] [] = .error "Timeout".toList :=
  (c2_retry_failure_propagates genFail2W chkW extW [] [] "Timeout".toList).2
    [] (by decide) rfl (by decide) rfl

/-- C3: the link checker escalates to the GET status exactly when the HEAD
status is 403, 405 or at least 500 (otherwise the GET outcome is never
consulted), and the effective status `s` yields `(true, s)` on 2xx,
`(true, s + " (redirect)")` on 3xx, and `(false, s)` on any other numeric
status. -/
theorem c3_check_url_statuses (h g : Nat) (gr : ProbeResult) :
    (¬(h = 403 ∨ h = 405 ∨ 500 ≤ h) →
      (200 ≤ h ∧ h < 300 → check_url (.status h) gr = (true, pyNatStr h)) ∧
      (300 ≤ h ∧ h < 400 →
        check_url (.status h) gr = (true, pyNatStr h ++ " (redirect)".toList)) ∧
      (¬(200 ≤ h ∧ h < 300) → ¬(300 ≤ h ∧ h < 400) →
        check_url (.status h) gr = (false, pyNatStr h))) ∧
    ((h = 403 ∨ h = 405 ∨ 500 ≤ h) →
      (200 ≤ g ∧ g < 300 → check_url (.status h) (.status g) = (true, pyNatStr g)) ∧
      (300 ≤ g ∧ g < 400 →
        check_url (.status h) (.status g) = (true, pyNatStr g ++ " (redirect)".toList)) ∧
      (¬(200 ≤ g ∧ g < 300) → ¬(300 ≤ g ∧ g < 400) →
        check_url (.status h) (.status g) = (false, pyNatStr g))) := by
  constructor
  · intro hesc
    rw [check_url_status_no_esc hesc gr]
    exact ⟨fun hr => verdictOf_2xx hr.1 hr.2, fun hr => verdictOf_3xx hr.1 hr.2,
      fun h1 h2 => verdictOf_other h1 h2⟩
  · intro hesc
    rw [check_url_status_esc hesc g]
    exact ⟨fun hr => verdictOf_2xx hr.1 hr.2, fun hr => verdictOf_3xx hr.1 hr.2,
      fun h1 h2 => verdictOf_other h1 h2⟩

/-- C3 witness: a 403 HEAD escalates and adopts the 204 GET status; a 200
HEAD ignores a raising GET probe. -/
theorem c3_check_url_statuses_witness :
    check_url (.status 403) (.status 204) = (true, "204".toList) ∧
    check_url (.status 200) (.exn "X".toList) = (true, "200".toList) := by
  constructor
  · exact (((c3_check_url_statuses 403 204 (.status 204)).2 (by omega)).1
      (by omega)).trans (by decide)
  · exact (((c3_check_url_statuses 200 0 (.exn "X".toList)).1 (by omega)).1
      (by omega)).trans (by decide)

/-- C4: the link checker is total — every combination of probe outcomes
yields a well-formed (bool, note) pair, never an exception — and every
transport failure (a raised exception from the HEAD probe, or from the GET
probe on an escalated status) resolves to `(false, "error: <class name>")`.
-/
theorem c4_check_url_total (headR getR : ProbeResult) :
    (∃ b note, check_url headR getR = (b, note)) ∧
    (∀ n, headR = .exn n → check_url headR getR = (false, errNote n)) ∧
    (∀ h n, headR = .status h → getR = .exn n → (h = 403 ∨ h = 405 ∨ 500 ≤ h) →
      check_url headR getR = (false, errNote n)) := by
  refine ⟨⟨(check_url headR getR).1, (check_url headR getR).2, rfl⟩, ?_, ?_⟩
  · rintro n rfl
    rfl
  · rintro h n rfl rfl hesc
    exact check_url_get_exn hesc n

/-- C4 witness: a DNS/transport failure on the HEAD probe yields the tagged
dead verdict. -/
theorem c4_check_url_total_witness :
    check_url (.exn "ConnectionError".toList) (.status 200) =
      (false, "error: ConnectionError".toList) :=
  ((c4_check_url_total (.exn "ConnectionError".toList) (.status 200)).2.1
    "ConnectionError".toList rfl).trans (by decide)

/-- C5: for every behaviour of the (non-raising) draft generator, of the
link checker and of the per-chunk extraction, the retry loop makes at most
`MAX_RETRIES = 2` repair generation calls — the transcript records one entry
per call — and then terminates in the ok state, proceeding to resolution;
and if the verified list already holds at least 6 URLs it proceeds to
resolution immediately, with zero retries. -/
theorem c5_retry_bound (gen : Nat → PyStr) (checkFn : PyStr → Bool × PyStr)
    (extractFn : PyStr → List PyStr) (good0 : List PyStr) (draft : PyStr) :
    (∃ g a tr, runRetryLoop (fun n => .ok (gen n)) checkFn extractFn good0 draft =
        .ok (g, a, tr) ∧ tr.length ≤ MAX_RETRIES ∧ a ≤ MAX_RETRIES) ∧
    (6 ≤ good0.length →
      runRetryLoop (fun n => .ok (gen n)) checkFn extractFn good0 draft =
        .ok (good0, 0, [])) := by
  constructor
  · obtain ⟨g, a, tr', h1, h2, h3⟩ :=
      retryLoopF_total gen checkFn extractFn MAX_RETRIES good0 0 draft []
    refine ⟨g, a, tr', ?_, h2, by omega⟩
    unfold runRetryLoop
    simpa using h1
  · intro h
    exact runRetryLoop_of_ge6 _ checkFn extractFn draft h

/-- C5 witness: six already-verified URLs exit immediately with zero
generation calls. -/
theorem c5_retry_bound_witness :
    runRetryLoop (fun n => .ok (genOkW n)) chkW extW goodSix [] =
      .ok (goodSix, 0, []) :=
  (c5_retry_bound genOkW chkW extW goodSix []).2 (by decide)

/-- C6: every record surviving metadata post-validation carries a url field
that is exactly a member of the verified input list (records with a foreign
or missing url are discarded); the survivors are ordered by the position of
their url in the input list (the sort key of the Python stable sort); and
the output is a permutation of exactly the parsed well-formed records with a
verified url, so urls the model omitted are simply absent. -/
theorem c6_metadata_validation (verified : List PyStr) (items : List PyItem) :
    (∀ r ∈ build_metadata_json verified (.arr items),
      ∃ u, r.url = some u ∧ u ∈ verified) ∧
    (build_metadata_json verified (.arr items)).Pairwise
      (fun r1 r2 => keyOf verified r1 ≤ keyOf verified r2) ∧
    (build_metadata_json verified (.arr items)).Perm
      (items.filterMap (rowOk verified)) :=
  ⟨fun _ hr => build_metadata_url_mem hr, build_metadata_pairwise verified items,
   build_metadata_perm verified items⟩

/-- C7: a response that fails to parse, parses to a non-list value, or
parses to a list entirely of malformed (non-dictionary) records yields the
empty metadata list; the function is total, so no error propagates and the
caller degrades to the no-table rendering. -/
theorem c7_metadata_parse_failure (verified : List PyStr) (items : List PyItem) :
    build_metadata_json verified .unparseable = [] ∧
    build_metadata_json verified .nonList = [] ∧
    ((∀ it ∈ items, it = .nonDict) → build_metadata_json verified (.arr items) = []) := by
  refine ⟨?_, ?_, ?_⟩
  · unfold build_metadata_json
    split <;> rfl
  · unfold build_metadata_json
    split <;> rfl
  · intro hall
    have h0 : items.filterMap (rowOk verified) = [] := by
      rw [List.filterMap_eq_nil_iff]
      intro it hit
      rw [hall it hit]
      rfl
    have hperm := build_metadata_perm verified items
    rw [h0] at hperm
    exact hperm.eq_nil

/-- C7 witness: a list of two non-dictionary items resolves to the empty
metadata list. -/
theorem c7_metadata_parse_failure_witness :
    build_metadata_json [urlA] (.arr [.nonDict, .nonDict]) = [] :=
  (c7_metadata_parse_failure [urlA] [.nonDict, .nonDict]).2.2 (by decide)

/-- C8 (counterexample): in `textDup` the URL `http://a.com` occurs twice
(bare, and bare with a trailing period); with cap 1 and a set-iteration
order reaching `http://b.com` first, the extractor returns `http://a.com`
zero times, not exactly once. -/
theorem c8_dedup_counterexample :
    validEnum textDup enumDup ∧
    2 ≤ (rawMatches textDup).countP (fun m => cleanUrl m == urlA) ∧
    extract_urls enumDup 1 = [urlB] ∧
    (extract_urls enumDup 1).count urlA = 0 := by
  refine ⟨⟨by decide, by decide, by decide⟩, by decide, by decide, by decide⟩

theorem count_pystr_congr (u : PyStr) (l : List PyStr) :
    @List.count PyStr List.instBEq u l = @List.count PyStr instBEqOfDecidableEq u l := by
  unfold List.count
  congr 1
  funext x
  by_cases h : x = u
  · subst h; simp
  · simp [h]

/-- C8 (amended): the extractor never returns a URL more than once; and for
a URL occurring (after trimming) more than once in the text it returns the
URL exactly once, provided the cap is not exhausted, i.e. the number of
distinct accepted candidates fits under the cap. -/
theorem c8_dedup_amended (text : PyStr) (raw : List PyStr) (cap : Nat) (u : PyStr)
    (hvalid : validEnum text raw)
    (hocc : 2 ≤ (rawMatches text).countP (fun m => cleanUrl m == u)) :
    (extract_urls raw cap).count u ≤ 1 ∧
    (((raw.map cleanUrl).filter schemeOkB).dedup.length ≤ cap →
      (extract_urls raw cap).count u = 1) := by
  obtain ⟨hnd, hsub1, hsub2⟩ := hvalid
  constructor
  · rw [count_pystr_congr]
    exact List.nodup_iff_count_le_one.mp (extract_urls_nodup raw cap) u
  · intro hcap
    have hex : ∃ m ∈ rawMatches text, cleanUrl m = u := by
      by_contra hno
      push_neg at hno
      have h0 : (rawMatches text).countP (fun m => cleanUrl m == u) = 0 := by
        rw [List.countP_eq_zero]
        intro m hm
        simp [hno m hm]
      omega
    obtain ⟨m, hm, hmu⟩ := hex
    have hok : schemeOkB (cleanUrl m) = true :=
      schemeOkB_cleanUrl_of_match (rawMatches_scheme hm)
    have hcard : (acceptSet raw).card ≤ cap := by
      unfold acceptSet
      rw [List.card_toFinset]
      exact hcap
    have hmem := mem_extract_urls_of_cap hcard (hsub2 m hm) hok
    rw [hmu] at hmem
    rw [count_pystr_congr]
    exact List.count_eq_one_of_mem (extract_urls_nodup raw cap) hmem

/-- C8 (amended), witness: with a cap that is not exhausted, the twice-
occurring URL comes back exactly once. -/
theorem c8_dedup_amended_witness : (extract_urls enumDup 50).count urlA = 1 :=
  (c8_dedup_amended textDup enumDup 50 urlA ⟨by decide, by decide, by decide⟩
    (by decide)).2 (by decide)

/-- C9 (counterexample): rendering a record whose url field is `"x"` (not an
HTTP URL) produces a table from which the extractor re-extracts nothing: the
raw-match set of the rendered text is empty, so the only admissible
enumeration is empty and the url set `{"x"}` is lost by the round trip. -/
theorem c9_roundtrip_counterexample :
    validEnum (render_resource_table [rowX]) [] ∧
    extract_urls [] 50 = [] ∧
    [rowX].filterMap (fun r => r.url) = ["x".toList] := by
  refine ⟨⟨by decide, by decide, by decide⟩, by decide, by decide⟩

/-- C9 (amended): for records whose url fields are well-shaped
extractor-style URLs (`cleanShapeB`) and whose free-text fields contain no
`http` substring (`wfRowB`), running the extractor over the rendered table
recovers exactly the set of url fields: the output is duplicate-free, and a
URL is extracted iff it is the url of some record (for any admissible
set-iteration order, provided the cap accommodates the distinct urls). -/
theorem c9_roundtrip_amended (rows : List MRow) (raw : List PyStr) (cap : Nat)
    (hwf : ∀ r ∈ rows, wfRowB r = true)
    (hvalid : validEnum (render_resource_table rows) raw)
    (hcap : raw.length ≤ cap) :
    (extract_urls raw cap).Nodup ∧
    (∀ u, u ∈ extract_urls raw cap ↔ ∃ r ∈ rows, r.url = some u) := by
  obtain ⟨hnd, hsub1, hsub2⟩ := hvalid
  by_cases hrows : rows = []
  · subst hrows
    have hraw : raw = [] := by
      cases hq : raw with
      | nil => rfl
      | cons m ms =>
        exfalso
        have hmem := hsub1 m (by rw [hq]; exact List.mem_cons_self m ms)
        rw [show rawMatches (render_resource_table []) = [] from by decide] at hmem
        simp at hmem
    subst hraw
    refine ⟨extract_urls_nodup [] cap, fun u => ⟨fun hu => ?_, fun hex => ?_⟩⟩
    · rw [show extract_urls [] cap = [] from rfl] at hu
      simp at hu
    · obtain ⟨r, hr, _⟩ := hex
      simp at hr
  · have hraweq := rawMatches_render hwf hrows
    have hmemiff : ∀ m, m ∈ raw ↔ m ∈ rows.map urlOf := by
      intro m
      constructor
      · intro hm
        have h2 := hsub1 m hm
        rw [hraweq] at h2
        rcases List.mem_append.mp h2 with h | h <;> exact h
      · intro hm
        exact hsub2 m (by rw [hraweq]; exact List.mem_append_left _ hm)
    have hshape : ∀ m ∈ raw, cleanShapeB m = true := by
      intro m hm
      obtain ⟨r, hr, hrm⟩ := List.mem_map.mp ((hmemiff m).mp hm)
      obtain ⟨⟨u2, hu2, hsh⟩, _⟩ := wfRowB_spec (hwf r hr)
      have hu : urlOf r = u2 := by unfold urlOf; rw [hu2]
      rw [← hrm, hu]
      exact hsh
    refine ⟨extract_urls_nodup raw cap, fun u => ⟨fun hu => ?_, fun hex => ?_⟩⟩
    · rcases mem_of_mem_extractLoop hu with h | ⟨m, hm, hmu, _⟩
      · simp at h
      · have hmshape := hshape m hm
        rw [cleanUrl_of_cleanShape hmshape] at hmu
        subst hmu
        obtain ⟨r, hr, hrm⟩ := List.mem_map.mp ((hmemiff u).mp hm)
        obtain ⟨⟨u2, hu2, _⟩, _⟩ := wfRowB_spec (hwf r hr)
        refine ⟨r, hr, ?_⟩
        rw [hu2, ← hrm]
        unfold urlOf
        rw [hu2]
    · obtain ⟨r, hr, hu2⟩ := hex
      have hmem : u ∈ raw := by
        apply (hmemiff u).mpr
        refine List.mem_map.mpr ⟨r, hr, ?_⟩
        unfold urlOf
        rw [hu2]
      have hush := hshape u hmem
      have hcard : (acceptSet raw).card ≤ cap := by
        have hmapid : raw.map cleanUrl = raw := by
          conv_rhs => rw [← List.map_id raw]
          exact List.map_congr_left (fun a ha => cleanUrl_of_cleanShape (hshape a ha))
        have hfilterid : (raw.map cleanUrl).filter schemeOkB = raw := by
          rw [hmapid, List.filter_eq_self]
          intro a ha
          exact schemeOkB_of_cleanShape (hshape a ha)
        unfold acceptSet
        rw [hfilterid, List.toFinset_card_of_nodup hnd]
        exact hcap
      have hres := mem_extract_urls_of_cap hcard hmem
        (by rw [cleanUrl_of_cleanShape hush]; exact schemeOkB_of_cleanShape hush)
      rw [cleanUrl_of_cleanShape hush] at hres
      exact hres

/-- C9 (amended), witness: one well-formed record round-trips: its URL is
re-extracted from the rendered table, exactly once. -/
theorem c9_roundtrip_amended_witness :
    urlA ∈ extract_urls [urlA] 50 ∧ (extract_urls [urlA] 50).Nodup := by
  have h := c9_roundtrip_amended [rowA] [urlA] 50 (by decide)
    ⟨by decide, by decide, by decide⟩ (by decide)
  exact ⟨(h.2 urlA).mpr ⟨rowA, by decide, by decide⟩, h.1⟩

/-- C10: the metadata post-validation performs no per-URL deduplication —
for any verified url the number of surviving records with that url equals
the number of parsed dictionary records with that url — so a twice-repeated
record survives as two records, and the renderer emits one row per record,
yielding two rows for one URL. -/
theorem c10_metadata_no_dedup (verified : List PyStr) (items : List PyItem)
    (u : PyStr) (r : MRow) (hmem : u ∈ verified) (hurl : r.url = some u) :
    (build_metadata_json verified (.arr items)).countP (fun x => x.url == some u) =
      items.countP (fun it => match it with
        | .dict x => x.url == some u
        | .nonDict => false) ∧
    build_metadata_json verified (.arr [.dict r, .dict r]) = [r, r] ∧
    render_resource_table [r, r] = headerStr ++ (rowLine r ++ '\n' :: rowLine r) := by
  refine ⟨?_, ?_, ?_⟩
  · rw [(build_metadata_perm verified items).countP_eq]
    exact filterMap_rowOk_countP verified items hmem
  · have hr1 : rowOk verified (PyItem.dict r) = some r := by
      show (match r.url with
        | some v => if v ∈ verified then some r else none
        | none => none) = some r
      rw [hurl]
      show (if u ∈ verified then some r else none) = some r
      rw [if_pos hmem]
    have hfm : ([PyItem.dict r, PyItem.dict r]).filterMap (rowOk verified) = [r, r] := by
      rw [List.filterMap_cons, hr1, List.filterMap_cons, hr1]
      rfl
    have hperm := build_metadata_perm verified [PyItem.dict r, PyItem.dict r]
    rw [hfm] at hperm
    have hlen := hperm.length_eq
    have hall : ∀ x ∈ build_metadata_json verified (.arr [.dict r, .dict r]), x = r := by
      intro x hx
      have hx2 := hperm.mem_iff.mp hx
      simp at hx2
      exact hx2
    cases hb : build_metadata_json verified (.arr [.dict r, .dict r]) with
    | nil => rw [hb] at hlen; simp at hlen
    | cons a rest =>
      cases rest with
      | nil => rw [hb] at hlen; simp at hlen
      | cons b rest2 =>
        cases rest2 with
        | nil =>
          have ha : a = r := hall a (by rw [hb]; simp)
          have hb2 : b = r := hall b (by rw [hb]; simp)
          rw [ha, hb2]
        | cons d rest3 => rw [hb] at hlen; simp at hlen
  · unfold render_resource_table
    rw [if_neg (by simp)]
    rfl

/-- C10 witness: two identical records with a verified url both survive
post-validation. -/
theorem c10_metadata_no_dedup_witness :
    build_metadata_json [urlA] (.arr [.dict rowU, .dict rowU]) = [rowU, rowU] :=
  (c10_metadata_no_dedup [urlA] [] urlA rowU (by decide) (by decide)).2.1
